import Mathlib

/-!
# bigArr: a sparse array indexed by 64-bit keys (src/bigArr.js)

The program keeps a tree of JavaScript arrays ("chunks") of 256 slots.  The
embedding below models the JavaScript heap explicitly: every array created by
`mk_chunk` is an object with an address, a slot of an array holds a JavaScript
value or is a hole, and a value may be a reference to an array.  The methods of
the class `BigArr` become functions that take the state and return the result
together with the new state; they return `none` only where the JavaScript code
would index into something that is not an array of the heap.

Keys are BigInts, modelled by `Int` (a key that is a Number makes the store into
the `BigUint64Array` throw, and is outside the model).  The typed array is taken
with the least significant byte first; `swapped_bigEndian` shows that the other
byte order gives the same slot indices.

The properties are proved through a tree invariant `HInv`: every chunk of the
heap carries the slot path that leads to it from the root, so chunks that are
reached by different paths have different addresses.
-/

namespace BigArrJS

/-! ## JavaScript values, arrays and the heap -/

/-- The JavaScript values the program can tell apart: `undefined`, a reference
to an array object, and every other value (opaque, taken from `α`). -/
inductive Value (α : Type) where
  | undefined : Value α
  | ref (addr : Nat) : Value α
  | other (x : α) : Value α
  deriving DecidableEq, Repr

/-- A JavaScript array object: its `length` and its elements.  A slot that was
never written is a hole (`none`). -/
structure JSArray (α : Type) where
  length : Nat
  elems : Nat → Option (Value α)

/-- The expression `a[i]`: reading a hole gives `undefined`. -/
def JSArray.get {α : Type} (a : JSArray α) (i : Nat) : Value α :=
  match a.elems i with
  | none => Value.undefined
  | some v => v

/-- The assignment `a[i] = v` on an array object. -/
def JSArray.put {α : Type} (a : JSArray α) (i : Nat) (v : Value α) : JSArray α :=
  { length := max a.length (i + 1)
    elems := fun j => if j = i then some v else a.elems j }

/-- The array objects allocated so far: addresses `0 .. size-1` are live. -/
structure Heap (α : Type) where
  size : Nat
  obj : Nat → JSArray α

/-- The expression `new Array (n)`: an array of length `n` whose slots are all holes. -/
def newArray {α : Type} (n : Nat) : JSArray α :=
  { length := n, elems := fun _ => none }

/-- Allocation of an array object at the next free address. -/
def Heap.alloc {α : Type} (h : Heap α) (a : JSArray α) : Heap α × Nat :=
  ({ size := h.size + 1, obj := fun p => if p = h.size then a else h.obj p }, h.size)

/-- Reading `cur[i]` where `cur` is the address of an array object. -/
def Heap.read {α : Type} (h : Heap α) (cur i : Nat) : Option (Value α) :=
  if cur < h.size then some ((h.obj cur).get i) else none

/-- Writing `cur[i] = v` where `cur` is the address of an array object. -/
def Heap.write {α : Type} (h : Heap α) (cur i : Nat) (v : Value α) : Option (Heap α) :=
  if cur < h.size then
    some { size := h.size, obj := fun p => if p = cur then (h.obj cur).put i v else h.obj p }
  else none

/-! ## The program -/

/-- Source: `function mk_chunk () { return new Array (256); }`. -/
def mk_chunk {α : Type} (h : Heap α) : Heap α × Nat :=
  h.alloc (newArray 256)

/-- The state of a `BigArr` object: the heap of its arrays and the field `arr`. -/
structure BigArr (α : Type) where
  heap : Heap α
  arr : Nat

/-- Source: `new BigArr`, whose field initialiser is `arr = mk_chunk ()`. -/
def BigArr.construct {α : Type} : BigArr α :=
  let r := mk_chunk { size := 0, obj := fun _ => newArray 0 }
  { heap := r.1, arr := r.2 }

/-- The store `new BigUint64Array(buf)[0] = x`: the BigInt is reduced modulo
`2^64` and written as 8 bytes, least significant byte first. -/
def storeBigUint64 (x : Int) : List Nat :=
  (List.range 8).map (fun i => (x % 2 ^ 64).toNat / 256 ^ i % 256)

/-- The load `new BigUint64Array(buf)[0]`: 8 bytes, least significant first. -/
def loadBigUint64 (buf : List Nat) : Nat :=
  buf.foldr (fun b acc => b + 256 * acc) 0

/-- The result object `{ arr: cur, ix: ... }` of `index_chunk`. -/
structure Res where
  arr : Nat
  ix : Nat
  deriving DecidableEq, Repr

/-- The body of the loop of `index_chunk`, run `n` more times:
`const lx = BigInt.asUintN(8, ix);
 if (cur[lx] === undefined) cur[lx] = mk_chunk();
 cur = cur[lx];
 ix >>= 8n;` -/
def index_chunk_loop {α : Type} : Nat → Heap α → Nat → Nat → Option (Heap α × Nat × Nat)
  | 0, h, cur, ix => some (h, cur, ix)
  | n + 1, h, cur, ix =>
    let lx := ix % 256
    match h.read cur lx with
    | none => none
    | some v =>
      let h1 : Option (Heap α) :=
        match v with
        | Value.undefined => (mk_chunk h).1.write cur lx (Value.ref (mk_chunk h).2)
        | _ => some h
      match h1 with
      | none => none
      | some h1 =>
        match h1.read cur lx with
        | some (Value.ref a) => index_chunk_loop n h1 a (ix / 256)
        | _ => none

/-- Source: `index_chunk (ix0)`.  The buffer is written, its bytes are reversed,
and the loop runs for `i = 0 .. 6`. -/
def BigArr.index_chunk {α : Type} (s : BigArr α) (ix0 : Int) : Option (BigArr α × Res) :=
  let buf := storeBigUint64 ix0
  let buf := buf.reverse
  let ix := loadBigUint64 buf
  let cur := s.arr
  match index_chunk_loop 7 s.heap cur ix with
  | none => none
  | some (h, cur, ix) => some ({ heap := h, arr := s.arr }, { arr := cur, ix := ix % 256 })

/-- Source: `get (ix) { const res = this.index_chunk(ix); return res.arr[res.ix]; }`. -/
def BigArr.get {α : Type} (s : BigArr α) (ix : Int) : Option (Value α × BigArr α) :=
  match s.index_chunk ix with
  | none => none
  | some (s1, res) =>
    match s1.heap.read res.arr res.ix with
    | none => none
    | some v => some (v, s1)

/-- Source: `set (ix, val) { const res = this.index_chunk(ix); return res.arr[res.ix] = val; }`. -/
def BigArr.set {α : Type} (s : BigArr α) (ix : Int) (val : Value α) :
    Option (Value α × BigArr α) :=
  match s.index_chunk ix with
  | none => none
  | some (s1, res) =>
    match s1.heap.write res.arr res.ix val with
    | none => none
    | some h2 => some (val, { heap := h2, arr := s1.arr })

/-! ## Calls, reachable structures and the notions the properties are stated with -/

/-- The `n` low bytes of `ix`, lowest first: the values `BigInt.asUintN(8, ix)`
takes while `ix >>= 8n` is repeated. -/
def lowBytes : Nat → Nat → List Nat
  | 0, _ => []
  | n + 1, ix => ix % 256 :: lowBytes n (ix / 256)

/-- The value of `ix` before the loop of `index_chunk`: the key with its 8 bytes
in reverse order. -/
def swapped (ix0 : Int) : Nat := loadBigUint64 (storeBigUint64 ix0).reverse

/-- The store of a BigUint64Array on a platform that puts the most significant
byte first. -/
def storeBigUint64BE (x : Int) : List Nat := (storeBigUint64 x).reverse

/-- The load of a BigUint64Array on a platform that puts the most significant
byte first. -/
def loadBigUint64BE (buf : List Nat) : Nat := loadBigUint64 buf.reverse

/-- The chunk reached from `cur` by following the slots `p` one after the other
(a read-only walk: it follows references that are there and creates nothing). -/
def Heap.walk {α : Type} (h : Heap α) : Nat → List Nat → Option Nat
  | cur, [] => some cur
  | cur, b :: bs =>
    match h.read cur b with
    | some (Value.ref a) => h.walk a bs
    | _ => none

/-- The heap is a tree of chunks below `root`: `lab a` is the slot path that
leads from the root to the chunk at address `a`.  Chunks lie at depth at most
7, and a slot of a chunk at depth below 7 is a hole or refers to the chunk
whose path is one slot longer. -/
structure HInv {α : Type} (h : Heap α) (root : Nat) (lab : Nat → List Nat) : Prop where
  root_lt : root < h.size
  lab_root : lab root = []
  lab_len : ∀ a, a < h.size → (lab a).length ≤ 7
  walk_lab : ∀ a, a < h.size → h.walk root (lab a) = some a
  branch : ∀ a, a < h.size → (lab a).length < 7 → ∀ i,
    (h.obj a).elems i = none ∨
      ∃ b, (h.obj a).elems i = some (Value.ref b) ∧ b < h.size ∧ lab b = lab a ++ [i]

/-- The heap `h2` extends `h1`: nothing that was there is lost, the chunks at
depth 7 are untouched, and a new chunk at depth 7 is empty. -/
structure Ext {α : Type} (h1 : Heap α) (lab1 : Nat → List Nat) (h2 : Heap α)
    (lab2 : Nat → List Nat) : Prop where
  size_le : h1.size ≤ h2.size
  lab_eq : ∀ a, a < h1.size → lab2 a = lab1 a
  keep : ∀ a, a < h1.size → ∀ i v, (h1.obj a).elems i = some v → (h2.obj a).elems i = some v
  leaf_eq : ∀ a, a < h1.size → (lab1 a).length = 7 → h2.obj a = h1.obj a
  fresh : ∀ a, h1.size ≤ a → a < h2.size → (lab2 a).length = 7 → h2.obj a = newArray 256

/-- The heap after `cur[lx] = mk_chunk()`: a new empty chunk at the next free
address, and slot `lx` of `cur` refers to it. -/
def Heap.grow {α : Type} (h : Heap α) (cur lx : Nat) : Heap α :=
  { size := h.size + 1
    obj := fun p =>
      if p = cur then (h.obj cur).put lx (Value.ref h.size)
      else if p = h.size then newArray 256 else h.obj p }

/-- The heap after `leaf[i] = v`. -/
def Heap.putAt {α : Type} (h : Heap α) (leaf i : Nat) (v : Value α) : Heap α :=
  { size := h.size
    obj := fun p => if p = leaf then (h.obj leaf).put i v else h.obj p }

/-- The seven branch slots of a key, in the order `index_chunk` visits them. -/
def keyPath (k : Int) : List Nat := lowBytes 7 (swapped k)

/-- The leaf slot of a key: the `ix` that `index_chunk` returns. -/
def keySlot (k : Int) : Nat := swapped k / 256 ^ 7 % 256

/-- What is stored for a key, found without changing the heap: the content of
slot `keySlot k` of the chunk at path `keyPath k`, and `undefined` when there is
no such chunk. -/
def BigArr.peek {α : Type} (s : BigArr α) (k : Int) : Value α :=
  match s.heap.walk s.arr (keyPath k) with
  | some leaf => (s.heap.obj leaf).get (keySlot k)
  | none => Value.undefined

/-- A key of the documented domain `0 .. 2^64-1`. -/
def validKey (k : Int) : Prop := 0 ≤ k ∧ k < 2 ^ 64

instance validKey.decidable (k : Int) : Decidable (validKey k) := by
  unfold validKey; infer_instance

/-- The eight slot indices `index_chunk` uses for a key: the seven branch slots
visited in order, followed by the returned `ix`. -/
def slotIndices (k : Int) : List Nat := keyPath k ++ [keySlot k]

/-- A call of one of the two public methods. -/
inductive Op (α : Type) where
  | get (k : Int) : Op α
  | set (k : Int) (v : Value α) : Op α

/-- The key of a call. -/
def Op.key {α : Type} : Op α → Int
  | Op.get k => k
  | Op.set k _ => k

/-- One call: its result and the state after it. -/
def BigArr.exec {α : Type} (s : BigArr α) : Op α → Option (Value α × BigArr α)
  | Op.get k => s.get k
  | Op.set k v => s.set k v

/-- A sequence of calls, one after the other. -/
def BigArr.run {α : Type} (s : BigArr α) : List (Op α) → Option (BigArr α)
  | [] => some s
  | op :: ops =>
    match s.exec op with
    | none => none
    | some r => r.2.run ops

/-- The structures reachable from `construct()` by get and set calls with keys
in `0 .. 2^64-1`. -/
def Reachable {α : Type} (s : BigArr α) : Prop :=
  ∃ ops : List (Op α), (∀ op ∈ ops, validKey op.key) ∧ BigArr.construct.run ops = some s

/-- The state is a tree of chunks (with some labelling of the chunks by paths). -/
def BigArr.IsTree {α : Type} (s : BigArr α) : Prop :=
  ∃ lab : Nat → List Nat, HInv s.heap s.arr lab

/-- The depth invariant: the root chunk exists; every chunk of the heap lies at
one path of at most 7 slots below the root (depth 0 to 7); and an occupied slot
of a chunk at depth 0 to 6 holds a chunk, one level deeper (so a stored value
that is not such a chunk can only be in a slot of a chunk at depth 7). -/
def BigArr.DepthOK {α : Type} (s : BigArr α) : Prop :=
  s.arr < s.heap.size ∧
  (∀ a, a < s.heap.size → ∃ p, p.length ≤ 7 ∧ s.heap.walk s.arr p = some a) ∧
  (∀ p a, p.length ≤ 7 → s.heap.walk s.arr p = some a → a < s.heap.size) ∧
  (∀ p q a, p.length ≤ 7 → q.length ≤ 7 → s.heap.walk s.arr p = some a →
    s.heap.walk s.arr q = some a → p = q) ∧
  (∀ p a, p.length ≤ 6 → s.heap.walk s.arr p = some a →
    ∀ i v, (s.heap.obj a).elems i = some v →
      ∃ b, v = Value.ref b ∧ s.heap.walk s.arr (p ++ [i]) = some b) ∧
  (∀ a, a < s.heap.size → ∀ i v, (s.heap.obj a).elems i = some v →
    (∃ p, p.length = 7 ∧ s.heap.walk s.arr p = some a) ∨
    (∃ p b, p.length ≤ 6 ∧ s.heap.walk s.arr p = some a ∧ v = Value.ref b ∧
      s.heap.walk s.arr (p ++ [i]) = some b))

/-- The number of chunks that are missing on the path `p` below the chunk `cur`:
once a slot on the path is not a reference to a chunk, that slot and all the
later ones have no chunk. -/
def Heap.missing {α : Type} (h : Heap α) : Nat → List Nat → Nat
  | _, [] => 0
  | cur, b :: bs =>
    match h.read cur b with
    | some (Value.ref a) => h.missing a bs
    | _ => bs.length + 1

/-- The number of byte prefixes `b0..bi` (`i` in `0 .. 6`) of the key `k` that
have no chunk. -/
def BigArr.missing {α : Type} (s : BigArr α) (k : Int) : Nat :=
  (List.range 7).countP (fun i => (s.heap.walk s.arr ((keyPath k).take (i + 1))).isNone)

/-- The content of slot `i` of the chunk at path `p` (`none` for a hole, and
when there is no chunk at `p`). -/
def BigArr.slotAt {α : Type} (s : BigArr α) (p : List Nat) (i : Nat) : Option (Value α) :=
  match s.heap.walk s.arr p with
  | some a => (s.heap.obj a).elems i
  | none => none

/-- The state `s2` and result `res` of a traversal for key `k` from the state
`s`, described through paths. -/
structure Traversed {α : Type} (s : BigArr α) (k : Int) (s2 : BigArr α) (res : Res) : Prop where
  tree : s2.IsTree
  arr_eq : s2.arr = s.arr
  ix_eq : res.ix = keySlot k
  leaf : s2.heap.walk s2.arr (keyPath k) = some res.arr
  leaf_lt : res.arr < s2.heap.size
  size_eq : s2.heap.size = s.heap.size + s.missing k
  mono : ∀ p a, s.heap.walk s.arr p = some a → s2.heap.walk s2.arr p = some a
  keep : ∀ a, a < s.heap.size → ∀ i v, (s.heap.obj a).elems i = some v →
    (s2.heap.obj a).elems i = some v
  created : ∀ a, s.heap.size ≤ a → a < s2.heap.size →
    ∃ j, 0 < j ∧ j ≤ 7 ∧ s2.heap.walk s2.arr ((keyPath k).take j) = some a ∧
      s.heap.walk s.arr ((keyPath k).take j) = none
  old : ∀ p a, p.length ≤ 7 → s2.heap.walk s2.arr p = some a → a < s.heap.size →
    s.heap.walk s.arr p = some a
  slots : ∀ p, p.length = 7 → ∀ i, s2.slotAt p i = s.slotAt p i
  same : s.missing k = 0 → s2 = s
  peek_eq : ∀ k2, s2.peek k2 = s.peek k2

/-- The state `s3` after the write `res.arr[res.ix] = v` in the state `s2`. -/
structure Written {α : Type} (s2 : BigArr α) (res : Res) (v : Value α) (s3 : BigArr α) :
    Prop where
  tree : s3.IsTree
  arr_eq : s3.arr = s2.arr
  size_eq : s3.heap.size = s2.heap.size
  walk_eq : ∀ p, p.length ≤ 7 → s3.heap.walk s3.arr p = s2.heap.walk s2.arr p
  elems_eq : ∀ a i, (s3.heap.obj a).elems i
    = if a = res.arr ∧ i = res.ix then some v else (s2.heap.obj a).elems i

/-- One step of the loop of `index_chunk`, as logged: the chunk `cur`, the slot
index `lx`, and the content of the slot `cur[lx]` that the test
`cur[lx] === undefined` reads (`none` for a hole). -/
structure Step (α : Type) where
  cur : Nat
  lx : Nat
  slot : Option (Value α)

/-- The loop of `index_chunk` with a log: the same steps as `index_chunk_loop`,
returning the list of the steps performed on a chunk of the heap. -/
def index_chunk_log {α : Type} : Nat → Heap α → Nat → Nat → List (Step α)
  | 0, _, _, _ => []
  | n + 1, h, cur, ix =>
    let lx := ix % 256
    match h.read cur lx with
    | none => []
    | some v =>
      let h1 : Option (Heap α) :=
        match v with
        | Value.undefined => (mk_chunk h).1.write cur lx (Value.ref (mk_chunk h).2)
        | _ => some h
      { cur := cur, lx := lx, slot := (h.obj cur).elems lx } ::
        match h1 with
        | none => []
        | some h1 =>
          match h1.read cur lx with
          | some (Value.ref a) => index_chunk_log n h1 a (ix / 256)
          | _ => []

/-- The steps of the descent of `index_chunk (ix0)`. -/
def BigArr.descent {α : Type} (s : BigArr α) (ix0 : Int) : List (Step α) :=
  index_chunk_log 7 s.heap s.arr (loadBigUint64 (storeBigUint64 ix0).reverse)

/-- The state `s3` after `set(k, v)` in the state `s`, described through paths:
which paths have a chunk, and what the leaf slots hold. -/
structure SetView {α : Type} (s : BigArr α) (k : Int) (v : Value α) (s3 : BigArr α) :
    Prop where
  tree : s3.IsTree
  size_eq : s3.heap.size = s.heap.size + s.missing k
  has_iff : ∀ p, p.length ≤ 7 →
    ((s3.heap.walk s3.arr p).isSome ↔ ((s.heap.walk s.arr p).isSome ∨ p <+: keyPath k))
  slots : ∀ p, p.length = 7 → ∀ i,
    s3.slotAt p i = if p = keyPath k ∧ i = keySlot k then some v else s.slotAt p i
  peek_eq : ∀ k2, s3.peek k2
    = if keyPath k2 = keyPath k ∧ keySlot k2 = keySlot k then v else s.peek k2

/-- Two states have the same structure: the same number of chunks, chunks at the
same paths, the same content in every leaf slot, and in every branch slot
either a hole in both or, in both, the chunk of the path one slot longer. -/
def SameStructure {α : Type} (s t : BigArr α) : Prop :=
  s.heap.size = t.heap.size ∧
  (∀ p, p.length ≤ 7 → ((s.heap.walk s.arr p).isSome ↔ (t.heap.walk t.arr p).isSome)) ∧
  (∀ p, p.length = 7 → ∀ i, s.slotAt p i = t.slotAt p i) ∧
  (∀ p, p.length < 7 → ∀ i,
    (s.slotAt p i = none ∧ t.slotAt p i = none) ∨
    ∃ a b, s.slotAt p i = some (Value.ref a) ∧ t.slotAt p i = some (Value.ref b) ∧
      s.heap.walk s.arr (p ++ [i]) = some a ∧ t.heap.walk t.arr (p ++ [i]) = some b)

/-! ## Lemmas: bytes, walks, the tree invariant, one call on a tree -/

/-- The byte order of the platform does not matter: store, reverse and load give
the same `ix` with either order. -/
theorem swapped_bigEndian (x : Int) :
    loadBigUint64BE (storeBigUint64BE x).reverse = swapped x := by
  simp [loadBigUint64BE, storeBigUint64BE, swapped]

theorem lowBytes_length (m n : Nat) : (lowBytes m n).length = m := by
  induction m generalizing n with
  | zero => rfl
  | succ m ih => simp [lowBytes, ih]

theorem lowBytes_lt (m n b : Nat) (hb : b ∈ lowBytes m n) : b < 256 := by
  induction m generalizing n with
  | zero => simp [lowBytes] at hb
  | succ m ih =>
    simp only [lowBytes, List.mem_cons] at hb
    rcases hb with rfl | hb
    · exact Nat.mod_lt _ (by norm_num)
    · exact ih _ hb

theorem lowBytes_eq_map (m n : Nat) :
    lowBytes m n = (List.range m).map (fun i => n / 256 ^ i % 256) := by
  induction m generalizing n with
  | zero => rfl
  | succ m ih =>
    rw [lowBytes, ih, List.range_succ_eq_map, List.map_cons, List.map_map]
    simp only [pow_zero, Nat.div_one, List.cons.injEq, true_and]
    apply List.map_congr_left
    intro i _
    simp [Nat.div_div_eq_div_mul, pow_succ']

theorem load_lowBytes (m n : Nat) : loadBigUint64 (lowBytes m n) = n % 256 ^ m := by
  induction m generalizing n with
  | zero => simp [lowBytes, loadBigUint64, Nat.mod_one]
  | succ m ih =>
    have h := ih (n / 256)
    simp only [loadBigUint64] at h
    simp only [lowBytes, loadBigUint64, List.foldr_cons, h]
    rw [pow_succ', Nat.mod_mul]

theorem lowBytes_load (bs : List Nat) (hbs : ∀ b ∈ bs, b < 256) :
    lowBytes bs.length (loadBigUint64 bs) = bs := by
  induction bs with
  | nil => rfl
  | cons b bs ih =>
    have hb : b < 256 := hbs b (List.mem_cons_self _ _)
    have h := ih (fun c hc => hbs c (List.mem_cons_of_mem _ hc))
    simp only [loadBigUint64] at h
    simp only [List.length_cons, lowBytes, loadBigUint64, List.foldr_cons]
    rw [show (b + 256 * List.foldr (fun b acc => b + 256 * acc) 0 bs) % 256 = b by omega,
      show (b + 256 * List.foldr (fun b acc => b + 256 * acc) 0 bs) / 256
        = List.foldr (fun b acc => b + 256 * acc) 0 bs by omega, h]

theorem storeBigUint64_eq (k : Int) : storeBigUint64 k = lowBytes 8 (k % 2 ^ 64).toNat := by
  rw [lowBytes_eq_map]; rfl

theorem lowBytes_swapped (k : Int) :
    lowBytes 8 (swapped k) = (lowBytes 8 (k % 2 ^ 64).toNat).reverse := by
  have h := lowBytes_load (lowBytes 8 (k % 2 ^ 64).toNat).reverse
    (fun b hb => lowBytes_lt 8 _ b (List.mem_reverse.mp hb))
  rw [List.length_reverse, lowBytes_length] at h
  rw [swapped, storeBigUint64_eq]; exact h

theorem JSArray.get_eq_ref {α : Type} (c : JSArray α) (i b : Nat) :
    c.get i = Value.ref b ↔ c.elems i = some (Value.ref b) := by
  unfold JSArray.get
  cases h : c.elems i <;> simp

theorem JSArray.get_of_none {α : Type} (c : JSArray α) (i : Nat) (h : c.elems i = none) :
    c.get i = Value.undefined := by
  simp [JSArray.get, h]

theorem JSArray.get_of_some {α : Type} (c : JSArray α) (i : Nat) (v : Value α)
    (h : c.elems i = some v) : c.get i = v := by
  simp [JSArray.get, h]

theorem Heap.read_of_lt {α : Type} (h : Heap α) (cur i : Nat) (hc : cur < h.size) :
    h.read cur i = some ((h.obj cur).get i) := by
  simp [Heap.read, hc]

theorem Heap.read_eq_ref {α : Type} (h : Heap α) (cur i b : Nat) :
    h.read cur i = some (Value.ref b) ↔ cur < h.size ∧ (h.obj cur).elems i = some (Value.ref b) := by
  unfold Heap.read
  split
  · next hc => simp [hc, JSArray.get_eq_ref]
  · next hc => simp [hc]

theorem Heap.walk_cons_ref {α : Type} (h : Heap α) (cur b a : Nat) (bs : List Nat)
    (hr : h.read cur b = some (Value.ref a)) : h.walk cur (b :: bs) = h.walk a bs := by
  simp [Heap.walk, hr]

theorem Heap.walk_cons_eq_some {α : Type} (h : Heap α) (cur b : Nat) (bs : List Nat) (x : Nat) :
    h.walk cur (b :: bs) = some x ↔
      ∃ a, h.read cur b = some (Value.ref a) ∧ h.walk a bs = some x := by
  cases hr : h.read cur b with
  | none => simp [Heap.walk, hr]
  | some v => cases v <;> simp [Heap.walk, hr]

theorem Heap.walk_append {α : Type} (h : Heap α) (cur : Nat) (p q : List Nat) :
    h.walk cur (p ++ q) = (h.walk cur p).bind (fun a => h.walk a q) := by
  induction p generalizing cur with
  | nil => rfl
  | cons b bs ih =>
    simp only [List.cons_append, Heap.walk]
    split
    · exact ih _
    · rfl

theorem Ext.refl {α : Type} (h : Heap α) (lab : Nat → List Nat) : Ext h lab h lab :=
  { size_le := le_refl _
    lab_eq := fun _ _ => rfl
    keep := fun _ _ _ _ hv => hv
    leaf_eq := fun _ _ _ => rfl
    fresh := fun _ h1 h2 _ => absurd h2 (not_lt.mpr h1) }

theorem Ext.trans {α : Type} {h1 h2 h3 : Heap α} {lab1 lab2 lab3 : Nat → List Nat}
    (e1 : Ext h1 lab1 h2 lab2) (e2 : Ext h2 lab2 h3 lab3) : Ext h1 lab1 h3 lab3 :=
  { size_le := le_trans e1.size_le e2.size_le
    lab_eq := fun a ha => by
      rw [e2.lab_eq a (lt_of_lt_of_le ha e1.size_le), e1.lab_eq a ha]
    keep := fun a ha i v hv =>
      e2.keep a (lt_of_lt_of_le ha e1.size_le) i v (e1.keep a ha i v hv)
    leaf_eq := fun a ha hl => by
      rw [e2.leaf_eq a (lt_of_lt_of_le ha e1.size_le) (by rw [e1.lab_eq a ha]; exact hl),
        e1.leaf_eq a ha hl]
    fresh := fun a ha1 ha3 hl => by
      by_cases ha2 : a < h2.size
      · rw [e2.leaf_eq a ha2 (by rw [← e2.lab_eq a ha2]; exact hl)]
        exact e1.fresh a ha1 ha2 (by rw [← e2.lab_eq a ha2]; exact hl)
      · exact e2.fresh a (not_lt.mp ha2) ha3 hl }

/-- A walk that succeeds still succeeds, with the same result, in a heap that
keeps every occupied slot. -/
theorem Heap.walk_mono {α : Type} {h1 h2 : Heap α} (hs : h1.size ≤ h2.size)
    (hk : ∀ a, a < h1.size → ∀ i v, (h1.obj a).elems i = some v → (h2.obj a).elems i = some v)
    (p : List Nat) (c x : Nat) (hw : h1.walk c p = some x) : h2.walk c p = some x := by
  induction p generalizing c with
  | nil => exact hw
  | cons b bs ih =>
    rw [Heap.walk_cons_eq_some] at hw ⊢
    obtain ⟨a, hr, hw⟩ := hw
    rw [Heap.read_eq_ref] at hr
    refine ⟨a, ?_, ih a hw⟩
    rw [Heap.read_eq_ref]
    exact ⟨lt_of_lt_of_le hr.1 hs, hk c hr.1 b _ hr.2⟩

/-- Under the invariant a walk of total depth at most 7 ends in the chunk whose
label is the path walked. -/
theorem HInv.walk_label {α : Type} {h : Heap α} {root : Nat} {lab : Nat → List Nat}
    (inv : HInv h root lab) (p : List Nat) (c x : Nat) (hc : c < h.size)
    (hl : (lab c).length + p.length ≤ 7) (hw : h.walk c p = some x) :
    x < h.size ∧ lab x = lab c ++ p := by
  induction p generalizing c with
  | nil =>
    simp only [Heap.walk, Option.some.injEq] at hw
    subst hw; simp [hc]
  | cons b bs ih =>
    rw [Heap.walk_cons_eq_some] at hw
    obtain ⟨a, hr, hw⟩ := hw
    rw [Heap.read_eq_ref] at hr
    simp only [List.length_cons] at hl
    rcases inv.branch c hc (by omega) b with hn | ⟨a1, hs, ha1, hlab⟩
    · rw [hn] at hr; exact absurd hr.2 (by simp)
    · rw [hs] at hr
      have : a1 = a := by simpa using hr.2
      subst this
      have := ih a1 ha1 (by rw [hlab]; simp; omega) hw
      rw [hlab] at this
      simpa using this

/-- Under the invariant the path to a chunk determines the chunk. -/
theorem HInv.walk_root {α : Type} {h : Heap α} {root : Nat} {lab : Nat → List Nat}
    (inv : HInv h root lab) (p : List Nat) (x : Nat) (hl : p.length ≤ 7)
    (hw : h.walk root p = some x) : x < h.size ∧ lab x = p := by
  have := inv.walk_label p root x inv.root_lt (by rw [inv.lab_root]; simpa using hl) hw
  rw [inv.lab_root] at this
  simpa using this

theorem Heap.write_mk_chunk {α : Type} (h : Heap α) (cur lx : Nat) (hc : cur < h.size) :
    (mk_chunk h).1.write cur lx (Value.ref (mk_chunk h).2) = some (h.grow cur lx) := by
  have hne : cur ≠ h.size := Nat.ne_of_lt hc
  simp only [mk_chunk, Heap.alloc, Heap.write, Heap.grow, Nat.lt_succ_of_lt hc, if_true, hne,
    if_false]

theorem Heap.grow_obj_new {α : Type} (h : Heap α) (cur lx : Nat) (hc : cur < h.size) :
    (h.grow cur lx).obj h.size = newArray 256 := by
  have hne : h.size ≠ cur := (Nat.ne_of_lt hc).symm
  simp [Heap.grow, hne]

theorem Heap.grow_obj_cur {α : Type} (h : Heap α) (cur lx i : Nat) :
    ((h.grow cur lx).obj cur).elems i
      = if i = lx then some (Value.ref h.size) else (h.obj cur).elems i := by
  simp [Heap.grow, JSArray.put]

theorem Heap.grow_obj_old {α : Type} (h : Heap α) (cur lx a : Nat) (h1 : a ≠ cur)
    (h2 : a ≠ h.size) : (h.grow cur lx).obj a = h.obj a := by
  simp [Heap.grow, h1, h2]

theorem Heap.grow_keep {α : Type} (h : Heap α) (cur lx : Nat)
    (hn : (h.obj cur).elems lx = none) (a : Nat) (ha : a < h.size) (i : Nat) (v : Value α)
    (hv : (h.obj a).elems i = some v) : ((h.grow cur lx).obj a).elems i = some v := by
  by_cases hac : a = cur
  · subst hac
    rw [Heap.grow_obj_cur]
    by_cases hi : i = lx
    · subst hi; rw [hn] at hv; cases hv
    · simp [hi, hv]
  · rw [Heap.grow_obj_old h cur lx a hac (Nat.ne_of_lt ha)]; exact hv

theorem Heap.grow_ext {α : Type} {h : Heap α} (lab : Nat → List Nat)
    (cur lx : Nat) (hc : cur < h.size) (hl : (lab cur).length < 7)
    (hn : (h.obj cur).elems lx = none) :
    Ext h lab (h.grow cur lx) (Function.update lab h.size (lab cur ++ [lx])) :=
  { size_le := Nat.le_succ _
    lab_eq := fun a ha => Function.update_noteq (Nat.ne_of_lt ha) _ _
    keep := fun a ha i v hv => Heap.grow_keep h cur lx hn a ha i v hv
    leaf_eq := fun a ha h7 => by
      apply Heap.grow_obj_old _ _ _ _ _ (Nat.ne_of_lt ha)
      rintro rfl; omega
    fresh := fun a h1 h2 _ => by
      have : a = h.size := by
        have : a < h.size + 1 := h2
        omega
      subst this
      exact Heap.grow_obj_new h cur lx hc }

theorem Heap.grow_inv {α : Type} {h : Heap α} {root : Nat} {lab : Nat → List Nat}
    (inv : HInv h root lab) (cur lx : Nat) (hc : cur < h.size) (hl : (lab cur).length < 7)
    (hn : (h.obj cur).elems lx = none) :
    HInv (h.grow cur lx) root (Function.update lab h.size (lab cur ++ [lx])) := by
  have hold : ∀ a, a < h.size → Function.update lab h.size (lab cur ++ [lx]) a = lab a :=
    fun a ha => Function.update_noteq (Nat.ne_of_lt ha) _ _
  have hnew : Function.update lab h.size (lab cur ++ [lx]) h.size = lab cur ++ [lx] :=
    Function.update_same _ _ _
  have hmono : ∀ p c x, h.walk c p = some x → (h.grow cur lx).walk c p = some x :=
    Heap.walk_mono (Nat.le_succ _) (Heap.grow_keep h cur lx hn)
  refine ⟨Nat.lt_succ_of_lt inv.root_lt, ?_, ?_, ?_, ?_⟩
  · rw [hold _ inv.root_lt]; exact inv.lab_root
  · intro a ha
    by_cases h1 : a = h.size
    · subst h1; rw [hnew]; simp; omega
    · have ha1 : a < h.size := by
        have : a < h.size + 1 := ha
        omega
      rw [hold a ha1]; exact inv.lab_len a ha1
  · intro a ha
    by_cases h1 : a = h.size
    · subst h1
      rw [hnew, Heap.walk_append, hmono _ _ _ (inv.walk_lab cur hc)]
      simp only [Option.some_bind]
      rw [Heap.walk_cons_eq_some]
      refine ⟨h.size, ?_, rfl⟩
      rw [Heap.read_eq_ref, Heap.grow_obj_cur]
      exact ⟨Nat.lt_succ_of_lt hc, by simp⟩
    · have ha1 : a < h.size := by
        have : a < h.size + 1 := ha
        omega
      rw [hold a ha1]; exact hmono _ _ _ (inv.walk_lab a ha1)
  · intro a ha hla i
    by_cases h1 : a = h.size
    · subst h1
      left
      rw [Heap.grow_obj_new h cur lx hc]; rfl
    · have ha1 : a < h.size := by
        have : a < h.size + 1 := ha
        omega
      rw [hold a ha1] at hla ⊢
      by_cases h2 : a = cur
      · subst h2
        rw [Heap.grow_obj_cur]
        by_cases hi : i = lx
        · subst hi
          right
          exact ⟨h.size, by simp, Nat.lt_succ_self _, hnew⟩
        · rw [if_neg hi]
          rcases inv.branch a ha1 hla i with hh | ⟨b, hb, hbs, hbl⟩
          · exact Or.inl hh
          · exact Or.inr ⟨b, hb, Nat.lt_succ_of_lt hbs, by rw [hold b hbs]; exact hbl⟩
      · rw [Heap.grow_obj_old h cur lx a h2 h1]
        rcases inv.branch a ha1 hla i with hh | ⟨b, hb, hbs, hbl⟩
        · exact Or.inl hh
        · exact Or.inr ⟨b, hb, Nat.lt_succ_of_lt hbs, by rw [hold b hbs]; exact hbl⟩

theorem index_chunk_loop_succ_ref {α : Type} (n : Nat) (h : Heap α) (cur ix a : Nat)
    (hc : cur < h.size) (hs : (h.obj cur).elems (ix % 256) = some (Value.ref a)) :
    index_chunk_loop (n + 1) h cur ix = index_chunk_loop n h a (ix / 256) := by
  have hr : h.read cur (ix % 256) = some (Value.ref a) := (Heap.read_eq_ref _ _ _ _).2 ⟨hc, hs⟩
  simp only [index_chunk_loop, hr]

theorem index_chunk_loop_succ_hole {α : Type} (n : Nat) (h : Heap α) (cur ix : Nat)
    (hc : cur < h.size) (hs : (h.obj cur).elems (ix % 256) = none) :
    index_chunk_loop (n + 1) h cur ix
      = index_chunk_loop n (h.grow cur (ix % 256)) h.size (ix / 256) := by
  have hr : h.read cur (ix % 256) = some Value.undefined := by
    rw [Heap.read_of_lt h cur _ hc, JSArray.get_of_none _ _ hs]
  have hr2 : (h.grow cur (ix % 256)).read cur (ix % 256) = some (Value.ref h.size) := by
    rw [Heap.read_eq_ref, Heap.grow_obj_cur]
    exact ⟨Nat.lt_succ_of_lt hc, by simp⟩
  simp only [index_chunk_loop, hr, Heap.write_mk_chunk h cur _ hc, hr2]

/-- The loop of `index_chunk`, started in a chunk at depth `d` with `d + n ≤ 7`,
returns: it ends in the chunk whose path is the path of `cur` followed by the
`n` low bytes of `ix`, in a heap that extends the old one and is again a tree. -/
theorem index_chunk_loop_spec {α : Type} (root : Nat) (n : Nat) :
    ∀ (h : Heap α) (lab : Nat → List Nat) (cur ix : Nat), HInv h root lab → cur < h.size →
      (lab cur).length + n ≤ 7 →
      ∃ h2 lab2 leaf, index_chunk_loop n h cur ix = some (h2, leaf, ix / 256 ^ n) ∧
        HInv h2 root lab2 ∧ Ext h lab h2 lab2 ∧ leaf < h2.size ∧
        lab2 leaf = lab cur ++ lowBytes n ix := by
  induction n with
  | zero =>
    intro h lab cur ix inv hc _
    exact ⟨h, lab, cur, by simp [index_chunk_loop], inv, Ext.refl h lab, hc, by simp [lowBytes]⟩
  | succ n ih =>
    intro h lab cur ix inv hc hl
    have hdiv : ix / 256 / 256 ^ n = ix / 256 ^ (n + 1) := by
      rw [Nat.div_div_eq_div_mul, pow_succ']
    rcases inv.branch cur hc (by omega) (ix % 256) with hn | ⟨b, hb, hbs, hbl⟩
    · have inv1 := Heap.grow_inv inv cur (ix % 256) hc (by omega) hn
      have ext1 := Heap.grow_ext lab cur (ix % 256) hc (by omega) hn
      have hnew : Function.update lab h.size (lab cur ++ [ix % 256]) h.size
          = lab cur ++ [ix % 256] := Function.update_same _ _ _
      obtain ⟨h2, lab2, leaf, hrun, inv2, ext2, hleaf, hlab⟩ :=
        ih (h.grow cur (ix % 256)) _ h.size (ix / 256) inv1 (Nat.lt_succ_self _)
          (by rw [hnew]; simp; omega)
      refine ⟨h2, lab2, leaf, ?_, inv2, ext1.trans ext2, hleaf, ?_⟩
      · rw [index_chunk_loop_succ_hole n h cur ix hc hn, hrun, hdiv]
      · rw [hlab, hnew]; simp [lowBytes]
    · obtain ⟨h2, lab2, leaf, hrun, inv2, ext2, hleaf, hlab⟩ :=
        ih h lab b (ix / 256) inv hbs (by rw [hbl]; simp; omega)
      refine ⟨h2, lab2, leaf, ?_, inv2, ext2, hleaf, ?_⟩
      · rw [index_chunk_loop_succ_ref n h cur ix b hc hb, hrun, hdiv]
      · rw [hlab, hbl]; simp [lowBytes]

theorem Heap.write_of_lt {α : Type} (h : Heap α) (leaf i : Nat) (v : Value α)
    (hl : leaf < h.size) : h.write leaf i v = some (h.putAt leaf i v) := by
  simp [Heap.write, Heap.putAt, hl]

theorem Heap.putAt_obj_ne {α : Type} (h : Heap α) (leaf i : Nat) (v : Value α) (a : Nat)
    (ha : a ≠ leaf) : (h.putAt leaf i v).obj a = h.obj a := by
  simp [Heap.putAt, ha]

theorem Heap.putAt_get {α : Type} (h : Heap α) (leaf i : Nat) (v : Value α) (j : Nat) :
    ((h.putAt leaf i v).obj leaf).get j = if j = i then v else (h.obj leaf).get j := by
  by_cases hj : j = i <;> simp [Heap.putAt, JSArray.put, JSArray.get, hj]

/-- Writing into a chunk at depth 7 does not change any walk of depth at most 7. -/
theorem Heap.putAt_walk {α : Type} {h : Heap α} {root : Nat} {lab : Nat → List Nat}
    (inv : HInv h root lab) (leaf i : Nat) (v : Value α) (h7 : (lab leaf).length = 7)
    (p : List Nat) (c : Nat) (hc : c < h.size) (hl : (lab c).length + p.length ≤ 7) :
    (h.putAt leaf i v).walk c p = h.walk c p := by
  induction p generalizing c with
  | nil => rfl
  | cons b bs ih =>
    simp only [List.length_cons] at hl
    have hne : c ≠ leaf := by rintro rfl; omega
    have hread : (h.putAt leaf i v).read c b = h.read c b := by
      simp only [Heap.read, Heap.putAt_obj_ne h leaf i v c hne]
      rfl
    rcases inv.branch c hc (by omega) b with hn | ⟨a, ha, has, hal⟩
    · have hr : h.read c b = some Value.undefined := by
        rw [Heap.read_of_lt h c b hc, JSArray.get_of_none _ _ hn]
      simp [Heap.walk, hread, hr]
    · have hr : h.read c b = some (Value.ref a) := (Heap.read_eq_ref _ _ _ _).2 ⟨hc, ha⟩
      rw [Heap.walk_cons_ref _ _ _ _ _ hr, Heap.walk_cons_ref _ _ _ _ _ (hread.trans hr)]
      exact ih a has (by rw [hal]; simp; omega)

theorem Heap.putAt_inv {α : Type} {h : Heap α} {root : Nat} {lab : Nat → List Nat}
    (inv : HInv h root lab) (leaf i : Nat) (v : Value α) (h7 : (lab leaf).length = 7) :
    HInv (h.putAt leaf i v) root lab := by
  refine ⟨inv.root_lt, inv.lab_root, inv.lab_len, ?_, ?_⟩
  · intro a ha
    have ha1 : a < h.size := ha
    rw [Heap.putAt_walk inv leaf i v h7 (lab a) root inv.root_lt
      (by rw [inv.lab_root]; simpa using inv.lab_len a ha1)]
    exact inv.walk_lab a ha1
  · intro a ha hla j
    have ha1 : a < h.size := ha
    have hne : a ≠ leaf := by rintro rfl; omega
    rw [Heap.putAt_obj_ne h leaf i v a hne]
    exact inv.branch a ha1 hla j

theorem keyPath_length (k : Int) : (keyPath k).length = 7 := lowBytes_length 7 _

/-- On a tree `index_chunk` returns: the leaf is the chunk at path `keyPath k`
and the index is `keySlot k`. -/
theorem index_chunk_spec {α : Type} (s : BigArr α) (lab : Nat → List Nat)
    (inv : HInv s.heap s.arr lab) (k : Int) :
    ∃ h2 lab2 leaf,
      s.index_chunk k = some ({ heap := h2, arr := s.arr }, { arr := leaf, ix := keySlot k }) ∧
      HInv h2 s.arr lab2 ∧ Ext s.heap lab h2 lab2 ∧ leaf < h2.size ∧ lab2 leaf = keyPath k := by
  obtain ⟨h2, lab2, leaf, hrun, inv2, ext2, hleaf, hlab⟩ :=
    index_chunk_loop_spec s.arr 7 s.heap lab s.arr (swapped k) inv inv.root_lt
      (by rw [inv.lab_root]; simp)
  refine ⟨h2, lab2, leaf, ?_, inv2, ext2, hleaf, ?_⟩
  · have hrun2 : index_chunk_loop 7 s.heap s.arr (loadBigUint64 (storeBigUint64 k).reverse)
        = some (h2, leaf, swapped k / 256 ^ 7) := hrun
    simp only [BigArr.index_chunk, hrun2, keySlot]
  · rw [hlab, inv.lab_root]; rfl

/-- The lookup of a key is the same in a heap and in an extension of it. -/
theorem peek_ext {α : Type} {h h2 : Heap α} {root : Nat} {lab lab2 : Nat → List Nat}
    (inv : HInv h root lab) (inv2 : HInv h2 root lab2) (ext : Ext h lab h2 lab2) (k : Int) :
    BigArr.peek { heap := h2, arr := root } k = BigArr.peek { heap := h, arr := root } k := by
  have hlen : (keyPath k).length ≤ 7 := le_of_eq (keyPath_length k)
  simp only [BigArr.peek]
  cases hw : h.walk root (keyPath k) with
  | some leaf =>
    have hw2 := Heap.walk_mono ext.size_le ext.keep _ _ _ hw
    obtain ⟨hlt, hlab⟩ := inv.walk_root _ _ hlen hw
    simp only [hw2]
    rw [ext.leaf_eq leaf hlt (by rw [hlab]; exact keyPath_length k)]
  | none =>
    cases hw2 : h2.walk root (keyPath k) with
    | none => rfl
    | some leaf2 =>
      obtain ⟨hlt2, hlab2⟩ := inv2.walk_root _ _ hlen hw2
      by_cases hold : leaf2 < h.size
      · have := inv.walk_lab leaf2 hold
        rw [← ext.lab_eq leaf2 hold, hlab2, hw] at this
        cases this
      · simp only
        rw [ext.fresh leaf2 (not_lt.mp hold) hlt2 (by rw [hlab2]; exact keyPath_length k)]
        rfl

/-- On a tree `get` returns the lookup of the key, in an extension of the heap. -/
theorem get_spec {α : Type} (s : BigArr α) (lab : Nat → List Nat)
    (inv : HInv s.heap s.arr lab) (k : Int) :
    ∃ h2 lab2, s.get k = some (s.peek k, { heap := h2, arr := s.arr }) ∧
      HInv h2 s.arr lab2 ∧ Ext s.heap lab h2 lab2 := by
  obtain ⟨h2, lab2, leaf, hix, inv2, ext2, hleaf, hlab⟩ := index_chunk_spec s lab inv k
  refine ⟨h2, lab2, ?_, inv2, ext2⟩
  have hw : h2.walk s.arr (keyPath k) = some leaf := by
    rw [← hlab]; exact inv2.walk_lab leaf hleaf
  have hp : s.peek k = (h2.obj leaf).get (keySlot k) := by
    have h1 := peek_ext inv inv2 ext2 k
    have h3 : BigArr.peek { heap := h2, arr := s.arr } k = (h2.obj leaf).get (keySlot k) := by
      simp only [BigArr.peek, hw]
    rw [← h3, h1]
  simp only [BigArr.get, hix, Heap.read_of_lt h2 leaf _ hleaf, hp]

/-- On a tree `set` returns its argument and leaves a tree in which the lookup
of the key written gives the value, and every other lookup is as before. -/
theorem set_spec {α : Type} (s : BigArr α) (lab : Nat → List Nat)
    (inv : HInv s.heap s.arr lab) (k : Int) (v : Value α) :
    ∃ h3 lab3, s.set k v = some (v, { heap := h3, arr := s.arr }) ∧
      HInv h3 s.arr lab3 ∧
      ∀ k2, BigArr.peek { heap := h3, arr := s.arr } k2
        = if keyPath k2 = keyPath k ∧ keySlot k2 = keySlot k then v else s.peek k2 := by
  obtain ⟨h2, lab2, leaf, hix, inv2, ext2, hleaf, hlab⟩ := index_chunk_spec s lab inv k
  have h7 : (lab2 leaf).length = 7 := by rw [hlab]; exact keyPath_length k
  refine ⟨h2.putAt leaf (keySlot k) v, lab2, ?_, Heap.putAt_inv inv2 leaf _ v h7, ?_⟩
  · simp only [BigArr.set, hix, Heap.write_of_lt h2 leaf _ v hleaf]
  · intro k2
    have hlen : (keyPath k2).length ≤ 7 := le_of_eq (keyPath_length k2)
    have hwalk : (h2.putAt leaf (keySlot k) v).walk s.arr (keyPath k2)
        = h2.walk s.arr (keyPath k2) :=
      Heap.putAt_walk inv2 leaf _ v h7 _ _ inv2.root_lt (by rw [inv2.lab_root]; simpa using hlen)
    have hold : s.peek k2 = BigArr.peek { heap := h2, arr := s.arr } k2 :=
      (peek_ext inv inv2 ext2 k2).symm
    have hw : h2.walk s.arr (keyPath k) = some leaf := by
      rw [← hlab]; exact inv2.walk_lab leaf hleaf
    rw [hold]
    simp only [BigArr.peek, hwalk]
    cases hw2 : h2.walk s.arr (keyPath k2) with
    | none =>
      have hne : keyPath k2 ≠ keyPath k := by
        intro he; rw [he, hw] at hw2; cases hw2
      simp [hne]
    | some leaf2 =>
      obtain ⟨-, hlab2⟩ := inv2.walk_root _ _ hlen hw2
      by_cases hl : leaf2 = leaf
      · subst hl
        have hpe : keyPath k2 = keyPath k := by rw [← hlab2, hlab]
        simp only [hpe, true_and, Heap.putAt_get]
      · have hne : keyPath k2 ≠ keyPath k := by
          intro he; rw [he, hw] at hw2; exact hl (Option.some.inj hw2).symm
        simp only [hne, false_and, if_false]
        rw [Heap.putAt_obj_ne _ _ _ _ _ hl]

theorem lowBytes_succ_last (m n : Nat) :
    lowBytes (m + 1) n = lowBytes m n ++ [n / 256 ^ m % 256] := by
  induction m generalizing n with
  | zero => simp [lowBytes]
  | succ m ih =>
    rw [lowBytes, ih (n / 256)]
    simp [lowBytes, Nat.div_div_eq_div_mul, pow_succ']

theorem slotIndices_eq (k : Int) : slotIndices k = lowBytes 8 (swapped k) := by
  rw [lowBytes_succ_last]; rfl

theorem slotIndices_eq_reverse (k : Int) :
    slotIndices k = (lowBytes 8 (k % 2 ^ 64).toNat).reverse := by
  rw [slotIndices_eq, lowBytes_swapped]

theorem validKey_toNat (k : Int) (hk : validKey k) : (k % 2 ^ 64).toNat = k.toNat := by
  rw [Int.emod_eq_of_lt hk.1 hk.2]

theorem slotIndices_inj (k k2 : Int) (hk : validKey k) (hk2 : validKey k2)
    (h : slotIndices k2 = slotIndices k) : k2 = k := by
  rw [slotIndices_eq_reverse, slotIndices_eq_reverse, List.reverse_inj, validKey_toNat k hk,
    validKey_toNat k2 hk2] at h
  have h1 := congrArg loadBigUint64 h
  rw [load_lowBytes, load_lowBytes] at h1
  have b1 : k.toNat < 256 ^ 8 := by
    have := hk.2
    omega
  have b2 : k2.toNat < 256 ^ 8 := by
    have := hk2.2
    omega
  rw [Nat.mod_eq_of_lt b1, Nat.mod_eq_of_lt b2] at h1
  have := hk.1
  have := hk2.1
  omega

theorem key_eq_iff (k k2 : Int) (hk : validKey k) (hk2 : validKey k2) :
    (keyPath k2 = keyPath k ∧ keySlot k2 = keySlot k) ↔ k2 = k := by
  constructor
  · rintro ⟨h1, h2⟩
    apply slotIndices_inj k k2 hk hk2
    simp [slotIndices, h1, h2]
  · rintro rfl; exact ⟨rfl, rfl⟩

theorem construct_inv {α : Type} :
    HInv (BigArr.construct : BigArr α).heap (BigArr.construct : BigArr α).arr (fun _ => []) := by
  refine ⟨Nat.lt_succ_self 0, rfl, fun _ _ => by simp, ?_, ?_⟩
  · intro a ha
    have : a = 0 := by
      have : a < 1 := ha
      omega
    subst this; rfl
  · intro a ha _ i
    have : a = 0 := by
      have : a < 1 := ha
      omega
    subst this
    left; rfl

theorem exec_spec {α : Type} (s : BigArr α) (lab : Nat → List Nat)
    (inv : HInv s.heap s.arr lab) (op : Op α) :
    ∃ r s2 lab2, s.exec op = some (r, s2) ∧ HInv s2.heap s2.arr lab2 ∧
      ∀ k2, s2.peek k2 = match op with
        | Op.get _ => s.peek k2
        | Op.set k v => if keyPath k2 = keyPath k ∧ keySlot k2 = keySlot k then v else s.peek k2 := by
  cases op with
  | get k =>
    obtain ⟨h2, lab2, hget, inv2, ext2⟩ := get_spec s lab inv k
    exact ⟨_, _, lab2, hget, inv2, fun k2 => peek_ext inv inv2 ext2 k2⟩
  | set k v =>
    obtain ⟨h3, lab3, hset, inv3, hp⟩ := set_spec s lab inv k v
    exact ⟨_, _, lab3, hset, inv3, hp⟩

/-- From a tree every sequence of calls runs to the end, and ends in a tree. -/
theorem run_spec {α : Type} (ops : List (Op α)) :
    ∀ s : BigArr α, s.IsTree → ∃ s2, s.run ops = some s2 ∧ s2.IsTree := by
  induction ops with
  | nil => intro s hs; exact ⟨s, rfl, hs⟩
  | cons op ops ih =>
    intro s ⟨lab, inv⟩
    obtain ⟨r, s2, lab2, hex, inv2, -⟩ := exec_spec s lab inv op
    obtain ⟨s3, hrun, hs3⟩ := ih s2 ⟨lab2, inv2⟩
    exact ⟨s3, by simp only [BigArr.run, hex, hrun], hs3⟩

theorem Reachable.isTree {α : Type} {s : BigArr α} (hs : Reachable s) : s.IsTree := by
  obtain ⟨ops, -, hrun⟩ := hs
  obtain ⟨s2, hrun2, hs2⟩ := run_spec ops (BigArr.construct : BigArr α) ⟨_, construct_inv⟩
  rw [hrun] at hrun2
  cases hrun2
  exact hs2

theorem reachable_construct {α : Type} : Reachable (BigArr.construct : BigArr α) :=
  ⟨[], by simp, rfl⟩

/-- A sequence of calls with valid keys that never sets key `k` does not change
the lookup of `k`. -/
theorem run_peek_of_not_set {α : Type} (k : Int) (hk : validKey k) (ops : List (Op α)) :
    ∀ s s2 : BigArr α, s.IsTree → (∀ op ∈ ops, validKey op.key) →
      (∀ v, Op.set k v ∉ ops) → s.run ops = some s2 → s2.peek k = s.peek k := by
  induction ops with
  | nil =>
    intro s s2 _ _ _ hrun
    simp only [BigArr.run, Option.some.injEq] at hrun
    rw [hrun]
  | cons op ops ih =>
    intro s s2 ⟨lab, inv⟩ hv hns hrun
    obtain ⟨r, s1, lab1, hex, inv1, hp⟩ := exec_spec s lab inv op
    simp only [BigArr.run, hex] at hrun
    have h1 := ih s1 s2 ⟨lab1, inv1⟩ (fun o ho => hv o (List.mem_cons_of_mem _ ho))
      (fun v hm => hns v (List.mem_cons_of_mem _ hm)) hrun
    rw [h1, hp k]
    cases op with
    | get k1 => rfl
    | set k1 v1 =>
      have hk1 : validKey k1 := hv _ (List.mem_cons_self _ _)
      have hne : k ≠ k1 := by
        rintro rfl; exact hns v1 (List.mem_cons_self _ _)
      have : ¬ (keyPath k = keyPath k1 ∧ keySlot k = keySlot k1) := by
        rw [key_eq_iff k1 k hk1 hk]; exact hne
      simp only [this, if_false]

theorem peek_construct {α : Type} (k : Int) :
    (BigArr.construct : BigArr α).peek k = Value.undefined := by
  have h7 := keyPath_length k
  simp only [BigArr.peek]
  cases hp : keyPath k with
  | nil => rw [hp] at h7; cases h7
  | cons b bs => rfl

theorem tree_get {α : Type} (s : BigArr α) (hs : s.IsTree) (k : Int) :
    ∃ s2, s.get k = some (s.peek k, s2) ∧ s2.IsTree ∧ s2.arr = s.arr ∧
      s.heap.size ≤ s2.heap.size ∧ ∀ k2, s2.peek k2 = s.peek k2 := by
  obtain ⟨lab, inv⟩ := hs
  obtain ⟨h2, lab2, hget, inv2, ext2⟩ := get_spec s lab inv k
  exact ⟨_, hget, ⟨lab2, inv2⟩, rfl, ext2.size_le, fun k2 => peek_ext inv inv2 ext2 k2⟩

theorem tree_set {α : Type} (s : BigArr α) (hs : s.IsTree) (k : Int) (hk : validKey k)
    (v : Value α) :
    ∃ s2, s.set k v = some (v, s2) ∧ s2.IsTree ∧ s2.peek k = v ∧
      ∀ k2, validKey k2 → k2 ≠ k → s2.peek k2 = s.peek k2 := by
  obtain ⟨lab, inv⟩ := hs
  obtain ⟨h3, lab3, hset, inv3, hp⟩ := set_spec s lab inv k v
  refine ⟨_, hset, ⟨lab3, inv3⟩, ?_, ?_⟩
  · rw [hp k]; simp
  · intro k2 hk2 hne
    rw [hp k2, if_neg]
    rw [key_eq_iff k k2 hk hk2]; exact hne

theorem run_append {α : Type} (xs ys : List (Op α)) :
    ∀ s : BigArr α, s.run (xs ++ ys) = (s.run xs).bind (fun t => t.run ys) := by
  induction xs with
  | nil => intro s; rfl
  | cons x xs ih =>
    intro s
    simp only [List.cons_append, BigArr.run]
    cases s.exec x with
    | none => rfl
    | some r => exact ih r.2

theorem Reachable.exec {α : Type} {s s2 : BigArr α} {r : Value α} (hs : Reachable s)
    (op : Op α) (hk : validKey op.key) (hex : s.exec op = some (r, s2)) : Reachable s2 := by
  obtain ⟨ops, hv, hrun⟩ := hs
  refine ⟨ops ++ [op], ?_, ?_⟩
  · intro o ho
    rcases List.mem_append.mp ho with h1 | h1
    · exact hv o h1
    · rw [List.mem_singleton.mp h1]; exact hk
  · rw [run_append, hrun]
    simp [BigArr.run, hex]

theorem keyPath_eq (k : Int) :
    keyPath k = (lowBytes 7 ((k % 2 ^ 64).toNat / 256)).reverse := by
  have h := slotIndices_eq_reverse k
  rw [lowBytes, List.reverse_cons] at h
  exact (List.append_inj' h rfl).1

theorem keySlot_eq (k : Int) : keySlot k = (k % 2 ^ 64).toNat % 256 := by
  have h := slotIndices_eq_reverse k
  rw [lowBytes, List.reverse_cons] at h
  have := (List.append_inj' h rfl).2
  simpa using this

theorem keySlot_lt (k : Int) : keySlot k < 256 := Nat.mod_lt _ (by norm_num)

theorem slotIndices_explicit (k : Int) (hk : validKey k) :
    slotIndices k = [k.toNat / 256 ^ 7 % 256, k.toNat / 256 ^ 6 % 256, k.toNat / 256 ^ 5 % 256,
      k.toNat / 256 ^ 4 % 256, k.toNat / 256 ^ 3 % 256, k.toNat / 256 ^ 2 % 256,
      k.toNat / 256 ^ 1 % 256, k.toNat / 256 ^ 0 % 256] := by
  rw [slotIndices_eq_reverse, validKey_toNat k hk, lowBytes_eq_map]
  rfl

theorem bytes_sum (n : Nat) (hn : n < 2 ^ 64) :
    n / 256 ^ 7 % 256 * 256 ^ 7 + n / 256 ^ 6 % 256 * 256 ^ 6 + n / 256 ^ 5 % 256 * 256 ^ 5
      + n / 256 ^ 4 % 256 * 256 ^ 4 + n / 256 ^ 3 % 256 * 256 ^ 3 + n / 256 ^ 2 % 256 * 256 ^ 2
      + n / 256 ^ 1 % 256 * 256 ^ 1 + n / 256 ^ 0 % 256 * 256 ^ 0 = n := by
  have h := load_lowBytes 8 n
  rw [lowBytes_eq_map, Nat.mod_eq_of_lt (by norm_num at hn ⊢; exact hn)] at h
  simp only [loadBigUint64, List.range_succ, List.range_zero, List.nil_append, List.cons_append,
    List.map_cons, List.map_nil, List.foldr_cons, List.foldr_nil] at h
  generalize n / 256 ^ 7 % 256 = b0 at h ⊢
  generalize n / 256 ^ 6 % 256 = b1 at h ⊢
  generalize n / 256 ^ 5 % 256 = b2 at h ⊢
  generalize n / 256 ^ 4 % 256 = b3 at h ⊢
  generalize n / 256 ^ 3 % 256 = b4 at h ⊢
  generalize n / 256 ^ 2 % 256 = b5 at h ⊢
  generalize n / 256 ^ 1 % 256 = b6 at h ⊢
  generalize n / 256 ^ 0 % 256 = b7 at h ⊢
  norm_num at h ⊢
  omega

theorem walk_none_of_take {α : Type} (h : Heap α) (c : Nat) (p : List Nat) (i : Nat)
    (hm : h.walk c (p.take i) = none) : h.walk c p = none := by
  rw [← List.take_append_drop i p, Heap.walk_append, hm]; rfl

/-- A `get` whose leaf chunk is missing returns `undefined` and allocates. -/
theorem get_of_missing {α : Type} (s : BigArr α) (hs : s.IsTree) (k : Int)
    (hmiss : s.heap.walk s.arr (keyPath k) = none) :
    ∃ s2, s.get k = some (Value.undefined, s2) ∧ s2.IsTree ∧ s.heap.size < s2.heap.size ∧
      (∀ a, a < s.heap.size → ∀ i v, (s.heap.obj a).elems i = some v →
        (s2.heap.obj a).elems i = some v) ∧
      ∀ k2, s2.peek k2 = s.peek k2 := by
  obtain ⟨lab, inv⟩ := hs
  obtain ⟨h2, lab2, leaf, hix, inv2, ext2, hleaf, hlab⟩ := index_chunk_spec s lab inv k
  obtain ⟨h2b, lab2b, hget, -, -⟩ := get_spec s lab inv k
  have hpeek : s.peek k = Value.undefined := by simp only [BigArr.peek, hmiss]
  have hsame : h2b = h2 := by
    simp only [BigArr.get, hix, Heap.read_of_lt h2 leaf _ hleaf, Option.some.injEq,
      Prod.mk.injEq, BigArr.mk.injEq, and_true] at hget
    exact hget.2.symm
  subst hsame
  refine ⟨_, by rw [hget, hpeek], ⟨lab2, inv2⟩, ?_, ext2.keep, fun k2 => peek_ext inv inv2 ext2 k2⟩
  by_contra hlt
  have hold : leaf < s.heap.size := lt_of_lt_of_le hleaf (not_lt.mp hlt)
  have := inv.walk_lab leaf hold
  rw [← ext2.lab_eq leaf hold, hlab, hmiss] at this
  cases this

theorem IsTree.depthOK {α : Type} {s : BigArr α} (hs : s.IsTree) : s.DepthOK := by
  obtain ⟨lab, inv⟩ := hs
  have hbranch : ∀ p a, p.length ≤ 6 → s.heap.walk s.arr p = some a →
      ∀ i v, (s.heap.obj a).elems i = some v →
        ∃ b, v = Value.ref b ∧ s.heap.walk s.arr (p ++ [i]) = some b := by
    intro p a hp hw i v hv
    obtain ⟨ha, hlab⟩ := inv.walk_root p a (by omega) hw
    rcases inv.branch a ha (by rw [hlab]; omega) i with hn | ⟨b, hb, hbs, hbl⟩
    · rw [hn] at hv; cases hv
    · rw [hb] at hv
      refine ⟨b, (Option.some.inj hv).symm, ?_⟩
      rw [← hlab, ← hbl]
      exact inv.walk_lab b hbs
  refine ⟨inv.root_lt, ?_, ?_, ?_, hbranch, ?_⟩
  · intro a ha
    exact ⟨lab a, inv.lab_len a ha, inv.walk_lab a ha⟩
  · intro p a hp hw
    exact (inv.walk_root p a hp hw).1
  · intro p q a hp hq hwp hwq
    rw [← (inv.walk_root p a hp hwp).2, ← (inv.walk_root q a hq hwq).2]
  · intro a ha i v hv
    by_cases h7 : (lab a).length = 7
    · exact Or.inl ⟨lab a, h7, inv.walk_lab a ha⟩
    · have h6 : (lab a).length ≤ 6 := by
        have := inv.lab_len a ha
        omega
      obtain ⟨b, hb, hwb⟩ := hbranch (lab a) a h6 (inv.walk_lab a ha) i v hv
      exact Or.inr ⟨lab a, b, h6, inv.walk_lab a ha, hb, hwb⟩

theorem Heap.missing_cons_ref {α : Type} (h : Heap α) (cur b a : Nat) (bs : List Nat)
    (hr : h.read cur b = some (Value.ref a)) : h.missing cur (b :: bs) = h.missing a bs := by
  simp [Heap.missing, hr]

theorem Heap.missing_cons_hole {α : Type} (h : Heap α) (cur b : Nat) (bs : List Nat)
    (hr : h.read cur b = some Value.undefined) : h.missing cur (b :: bs) = bs.length + 1 := by
  simp [Heap.missing, hr]

theorem Heap.walk_cons_hole {α : Type} (h : Heap α) (cur b : Nat) (bs : List Nat)
    (hr : h.read cur b = some Value.undefined) : h.walk cur (b :: bs) = none := by
  simp [Heap.walk, hr]

theorem Heap.missing_le {α : Type} (h : Heap α) (p : List Nat) :
    ∀ cur, h.missing cur p ≤ p.length := by
  induction p with
  | nil => intro cur; simp [Heap.missing]
  | cons b bs ih =>
    intro cur
    cases hr : h.read cur b with
    | none => simp [Heap.missing, hr]
    | some v =>
      cases v with
      | undefined => simp [Heap.missing, hr]
      | ref a =>
        rw [Heap.missing_cons_ref h cur b a bs hr]
        have := ih a
        simp only [List.length_cons]
        omega
      | other x => simp [Heap.missing, hr]

theorem Heap.missing_of_walk_none {α : Type} (h : Heap α) (cur b : Nat) (bs : List Nat)
    (hall : ∀ q, h.walk cur (b :: q) = none) :
    (List.range (b :: bs).length).countP
      (fun i => (h.walk cur ((b :: bs).take (i + 1))).isNone) = bs.length + 1 := by
  have h1 : (List.range (b :: bs).length).countP
      (fun i => (h.walk cur ((b :: bs).take (i + 1))).isNone)
      = (List.range (b :: bs).length).length := by
    rw [List.countP_eq_length]
    intro i _
    simp [hall]
  rw [h1, List.length_range, List.length_cons]

/-- The recursive count is the number of prefixes of the path without a chunk. -/
theorem Heap.missing_eq_countP {α : Type} (h : Heap α) (p : List Nat) :
    ∀ cur, h.missing cur p
      = (List.range p.length).countP (fun i => (h.walk cur (p.take (i + 1))).isNone) := by
  induction p with
  | nil => intro cur; rfl
  | cons b bs ih =>
    intro cur
    cases hr : h.read cur b with
    | none =>
      rw [Heap.missing_of_walk_none h cur b bs (fun q => by simp [Heap.walk, hr])]
      simp [Heap.missing, hr]
    | some v =>
      cases v with
      | undefined =>
        rw [Heap.missing_of_walk_none h cur b bs (fun q => by simp [Heap.walk, hr])]
        simp [Heap.missing, hr]
      | other x =>
        rw [Heap.missing_of_walk_none h cur b bs (fun q => by simp [Heap.walk, hr])]
        simp [Heap.missing, hr]
      | ref a =>
        rw [Heap.missing_cons_ref h cur b a bs hr, ih a, List.length_cons,
          List.range_succ_eq_map, List.countP_cons, List.countP_map]
        have h0 : (h.walk cur ((b :: bs).take (0 + 1))).isNone = false := by
          simp [Heap.walk, hr]
        simp only [h0, Bool.false_eq_true, if_false, Nat.add_zero]
        apply List.countP_congr
        intro i _
        simp [Heap.walk, hr]

theorem Heap.missing_of_empty {α : Type} (h : Heap α) (c : Nat) (hc : c < h.size)
    (he : h.obj c = newArray 256) (p : List Nat) : h.missing c p = p.length := by
  cases p with
  | nil => rfl
  | cons b bs =>
    have hr : h.read c b = some Value.undefined := by
      rw [Heap.read_of_lt h c b hc, he]; rfl
    rw [Heap.missing_cons_hole h c b bs hr, List.length_cons]

/-- The loop of `index_chunk` once more, with the number of chunks it creates:
one for each slot of the path that had no chunk, and the new chunks are the
chunks of prefixes of the path. -/
theorem index_chunk_loop_full {α : Type} (root : Nat) (n : Nat) :
    ∀ (h : Heap α) (lab : Nat → List Nat) (cur ix : Nat), HInv h root lab → cur < h.size →
      (lab cur).length + n ≤ 7 →
      ∃ h2 lab2 leaf, index_chunk_loop n h cur ix = some (h2, leaf, ix / 256 ^ n) ∧
        HInv h2 root lab2 ∧ Ext h lab h2 lab2 ∧ leaf < h2.size ∧
        lab2 leaf = lab cur ++ lowBytes n ix ∧
        h2.size = h.size + h.missing cur (lowBytes n ix) ∧
        (∀ a, h.size ≤ a → a < h2.size →
          ∃ j, 0 < j ∧ j ≤ n ∧ lab2 a = lab cur ++ (lowBytes n ix).take j) ∧
        (h.missing cur (lowBytes n ix) = 0 → h2 = h) := by
  induction n with
  | zero =>
    intro h lab cur ix inv hc _
    refine ⟨h, lab, cur, by simp [index_chunk_loop], inv, Ext.refl h lab, hc,
      by simp [lowBytes], by simp [lowBytes, Heap.missing], ?_, fun _ => rfl⟩
    intro a h1 h2
    omega
  | succ n ih =>
    intro h lab cur ix inv hc hl
    have hdiv : ix / 256 / 256 ^ n = ix / 256 ^ (n + 1) := by
      rw [Nat.div_div_eq_div_mul, pow_succ']
    rcases inv.branch cur hc (by omega) (ix % 256) with hn | ⟨b, hb, hbs, hbl⟩
    · have inv1 := Heap.grow_inv inv cur (ix % 256) hc (by omega) hn
      have ext1 := Heap.grow_ext lab cur (ix % 256) hc (by omega) hn
      have hnew : Function.update lab h.size (lab cur ++ [ix % 256]) h.size
          = lab cur ++ [ix % 256] := Function.update_same _ _ _
      have hr : h.read cur (ix % 256) = some Value.undefined := by
        rw [Heap.read_of_lt h cur _ hc, JSArray.get_of_none _ _ hn]
      obtain ⟨h2, lab2, leaf, hrun, inv2, ext2, hleaf, hlab, hsize, hnewlab, -⟩ :=
        ih (h.grow cur (ix % 256)) _ h.size (ix / 256) inv1 (Nat.lt_succ_self _)
          (by rw [hnew]; simp; omega)
      have hm1 : (h.grow cur (ix % 256)).missing h.size (lowBytes n (ix / 256)) = n := by
        rw [Heap.missing_of_empty _ h.size (Nat.lt_succ_self _) (Heap.grow_obj_new h cur _ hc),
          lowBytes_length]
      have hm : h.missing cur (lowBytes (n + 1) ix) = n + 1 := by
        rw [lowBytes, Heap.missing_cons_hole h cur _ _ hr, lowBytes_length]
      refine ⟨h2, lab2, leaf, ?_, inv2, ext1.trans ext2, hleaf, ?_, ?_, ?_, ?_⟩
      · rw [index_chunk_loop_succ_hole n h cur ix hc hn, hrun, hdiv]
      · rw [hlab, hnew]; simp [lowBytes]
      · rw [hsize, hm1, hm]
        show h.size + 1 + n = h.size + (n + 1)
        omega
      · intro a ha1 ha2
        by_cases hah : a = h.size
        · subst hah
          refine ⟨1, Nat.one_pos, by omega, ?_⟩
          rw [ext2.lab_eq h.size (Nat.lt_succ_self _), hnew]
          simp [lowBytes]
        · obtain ⟨j, hj0, hjn, hj⟩ := hnewlab a (by
            show h.size + 1 ≤ a
            omega) ha2
          refine ⟨j + 1, Nat.succ_pos _, by omega, ?_⟩
          rw [hj, hnew]
          simp [lowBytes]
      · intro h0
        rw [hm] at h0
        cases h0
    · have hr : h.read cur (ix % 256) = some (Value.ref b) :=
        (Heap.read_eq_ref _ _ _ _).2 ⟨hc, hb⟩
      obtain ⟨h2, lab2, leaf, hrun, inv2, ext2, hleaf, hlab, hsize, hnewlab, hzero⟩ :=
        ih h lab b (ix / 256) inv hbs (by rw [hbl]; simp; omega)
      have hm : h.missing cur (lowBytes (n + 1) ix) = h.missing b (lowBytes n (ix / 256)) := by
        rw [lowBytes, Heap.missing_cons_ref h cur _ b _ hr]
      refine ⟨h2, lab2, leaf, ?_, inv2, ext2, hleaf, ?_, ?_, ?_, ?_⟩
      · rw [index_chunk_loop_succ_ref n h cur ix b hc hb, hrun, hdiv]
      · rw [hlab, hbl]; simp [lowBytes]
      · rw [hsize, hm]
      · intro a ha1 ha2
        obtain ⟨j, hj0, hjn, hj⟩ := hnewlab a ha1 ha2
        refine ⟨j + 1, Nat.succ_pos _, by omega, ?_⟩
        rw [hj, hbl]
        simp [lowBytes]
      · intro h0
        rw [hm] at h0
        exact hzero h0

theorem BigArr.missing_eq {α : Type} (s : BigArr α) (k : Int) :
    s.missing k = s.heap.missing s.arr (keyPath k) := by
  rw [Heap.missing_eq_countP, keyPath_length]
  rfl

theorem BigArr.missing_le_seven {α : Type} (s : BigArr α) (k : Int) : s.missing k ≤ 7 := by
  rw [BigArr.missing_eq]
  have := Heap.missing_le s.heap (keyPath k) s.arr
  rwa [keyPath_length] at this

/-- On a tree `index_chunk` returns, and its effect is that of a traversal. -/
theorem index_chunk_traversed {α : Type} (s : BigArr α) (hs : s.IsTree) (k : Int) :
    ∃ s2 res, s.index_chunk k = some (s2, res) ∧ Traversed s k s2 res := by
  obtain ⟨lab, inv⟩ := hs
  obtain ⟨h2, lab2, leaf, hrun, inv2, ext, hleaf, hlab, hsize, hnewlab, hzero⟩ :=
    index_chunk_loop_full s.arr 7 s.heap lab s.arr (swapped k) inv inv.root_lt
      (by rw [inv.lab_root]; simp)
  have hlab7 : lab2 leaf = keyPath k := by rw [hlab, inv.lab_root]; rfl
  have hix : s.index_chunk k
      = some ({ heap := h2, arr := s.arr }, { arr := leaf, ix := keySlot k }) := by
    have hrun2 : index_chunk_loop 7 s.heap s.arr (loadBigUint64 (storeBigUint64 k).reverse)
        = some (h2, leaf, swapped k / 256 ^ 7) := hrun
    simp only [BigArr.index_chunk, hrun2, keySlot]
  have hmono : ∀ p a, s.heap.walk s.arr p = some a → h2.walk s.arr p = some a :=
    fun p a hw => Heap.walk_mono ext.size_le ext.keep p s.arr a hw
  have hold : ∀ p a, p.length ≤ 7 → h2.walk s.arr p = some a → a < s.heap.size →
      s.heap.walk s.arr p = some a := by
    intro p a hp hw ha
    have h1 := (inv2.walk_root p a hp hw).2
    have h2 := inv.walk_lab a ha
    rwa [← ext.lab_eq a ha, h1] at h2
  refine ⟨_, _, hix, ⟨⟨lab2, inv2⟩, rfl, rfl, ?_, hleaf, ?_, hmono, ext.keep, ?_, hold, ?_, ?_,
    fun k2 => peek_ext inv inv2 ext k2⟩⟩
  · show h2.walk s.arr (keyPath k) = some leaf
    rw [← hlab7]; exact inv2.walk_lab leaf hleaf
  · show h2.size = s.heap.size + s.missing k
    rw [BigArr.missing_eq]; exact hsize
  · intro a ha1 ha2
    obtain ⟨j, hj0, hj7, hj⟩ := hnewlab a ha1 ha2
    rw [inv.lab_root, List.nil_append] at hj
    have hw2 : h2.walk s.arr ((keyPath k).take j) = some a := by
      have := inv2.walk_lab a ha2
      rwa [hj] at this
    refine ⟨j, hj0, hj7, hw2, ?_⟩
    cases hw : s.heap.walk s.arr ((keyPath k).take j) with
    | none => rfl
    | some a0 =>
      have hlen : ((keyPath k).take j).length ≤ 7 := by
        rw [List.length_take, keyPath_length]; omega
      have h0 := (inv.walk_root _ a0 hlen hw).1
      have h1 := hmono _ _ hw
      rw [hw2] at h1
      have : a = a0 := Option.some.inj h1
      omega
  · intro p hp i
    simp only [BigArr.slotAt]
    cases hw : s.heap.walk s.arr p with
    | some a0 =>
      have h0 := inv.walk_root p a0 (le_of_eq hp) hw
      simp only [hmono p a0 hw]
      rw [ext.leaf_eq a0 h0.1 (by rw [h0.2]; exact hp)]
    | none =>
      cases hw2 : h2.walk s.arr p with
      | none => rfl
      | some a2 =>
        have h2' := inv2.walk_root p a2 (le_of_eq hp) hw2
        by_cases hlt : a2 < s.heap.size
        · have := hold p a2 (le_of_eq hp) hw2 hlt
          rw [hw] at this; cases this
        · simp only
          rw [ext.fresh a2 (not_lt.mp hlt) h2'.1 (by rw [h2'.2]; exact hp)]
          rfl
  · intro h0
    rw [BigArr.missing_eq] at h0
    have := hzero h0
    subst this
    rfl

theorem Heap.putAt_elems {α : Type} (h : Heap α) (leaf i : Nat) (v : Value α) (a j : Nat) :
    ((h.putAt leaf i v).obj a).elems j
      = if a = leaf ∧ j = i then some v else (h.obj a).elems j := by
  by_cases ha : a = leaf
  · subst ha
    by_cases hj : j = i <;> simp [Heap.putAt, JSArray.put, hj]
  · simp [Heap.putAt, ha]

/-- On a tree `get` is a traversal followed by a read of the leaf slot. -/
theorem get_traversed {α : Type} (s : BigArr α) (hs : s.IsTree) (k : Int) :
    ∃ s2 res, s.index_chunk k = some (s2, res) ∧ Traversed s k s2 res ∧
      s.get k = some (s.peek k, s2) := by
  obtain ⟨s2, res, hix, tr⟩ := index_chunk_traversed s hs k
  refine ⟨s2, res, hix, tr, ?_⟩
  have hp : s2.peek k = (s2.heap.obj res.arr).get res.ix := by
    simp only [BigArr.peek, tr.leaf, tr.ix_eq]
  simp only [BigArr.get, hix, Heap.read_of_lt s2.heap res.arr res.ix tr.leaf_lt, ← hp,
    tr.peek_eq k]

/-- On a tree `set` is a traversal followed by a write of the leaf slot. -/
theorem set_traversed {α : Type} (s : BigArr α) (hs : s.IsTree) (k : Int) (v : Value α) :
    ∃ s2 res s3, s.index_chunk k = some (s2, res) ∧ Traversed s k s2 res ∧
      s.set k v = some (v, s3) ∧ Written s2 res v s3 := by
  obtain ⟨s2, res, hix, tr⟩ := index_chunk_traversed s hs k
  obtain ⟨lab2, inv2⟩ := tr.tree
  have h7 : (lab2 res.arr).length = 7 := by
    rw [(inv2.walk_root _ _ (le_of_eq (keyPath_length k)) tr.leaf).2]
    exact keyPath_length k
  refine ⟨s2, res, { heap := s2.heap.putAt res.arr res.ix v, arr := s2.arr }, hix, tr, ?_, ?_⟩
  · simp only [BigArr.set, hix, Heap.write_of_lt s2.heap res.arr res.ix v tr.leaf_lt]
  · refine ⟨⟨lab2, Heap.putAt_inv inv2 res.arr res.ix v h7⟩, rfl, rfl, ?_, ?_⟩
    · intro p hp
      exact Heap.putAt_walk inv2 res.arr res.ix v h7 p s2.arr inv2.root_lt
        (by rw [inv2.lab_root]; simpa using hp)
    · intro a i
      exact Heap.putAt_elems s2.heap res.arr res.ix v a i

theorem Heap.walk_take {α : Type} (h : Heap α) (c : Nat) (p : List Nat) (a : Nat)
    (hw : h.walk c p = some a) (j : Nat) : ∃ b, h.walk c (p.take j) = some b := by
  rw [← List.take_append_drop j p, Heap.walk_append] at hw
  cases hb : h.walk c (p.take j) with
  | none => rw [hb] at hw; cases hw
  | some b => exact ⟨b, rfl⟩

theorem Heap.walk_snoc {α : Type} (h : Heap α) (c : Nat) (p : List Nat) (j b : Nat)
    (hw : h.walk c (p ++ [j]) = some b) :
    ∃ a, h.walk c p = some a ∧ a < h.size ∧ (h.obj a).elems j = some (Value.ref b) := by
  rw [Heap.walk_append] at hw
  cases ha : h.walk c p with
  | none => rw [ha] at hw; cases hw
  | some a =>
    rw [ha, Option.some_bind, Heap.walk_cons_eq_some] at hw
    obtain ⟨b2, hr, hb⟩ := hw
    simp only [Heap.walk, Option.some.injEq] at hb
    subst hb
    rw [Heap.read_eq_ref] at hr
    exact ⟨a, rfl, hr.1, hr.2⟩

theorem Heap.walk_snoc_of {α : Type} (h : Heap α) (c : Nat) (p : List Nat) (j a b : Nat)
    (hw : h.walk c p = some a) (ha : a < h.size)
    (hs : (h.obj a).elems j = some (Value.ref b)) : h.walk c (p ++ [j]) = some b := by
  rw [Heap.walk_append, hw, Option.some_bind, Heap.walk_cons_eq_some]
  exact ⟨b, (Heap.read_eq_ref _ _ _ _).2 ⟨ha, hs⟩, rfl⟩

/-- After a traversal for `k` every byte prefix of `k` has a chunk. -/
theorem Traversed.missing_zero {α : Type} {s s2 : BigArr α} {k : Int} {res : Res}
    (tr : Traversed s k s2 res) : s2.missing k = 0 := by
  simp only [BigArr.missing, List.countP_eq_zero]
  intro i _
  obtain ⟨b, hb⟩ := Heap.walk_take s2.heap s2.arr (keyPath k) res.arr tr.leaf (i + 1)
  simp [hb]

theorem BigArr.missing_congr {α : Type} (s : BigArr α) (k k2 : Int)
    (hp : keyPath k2 = keyPath k) : s.missing k2 = s.missing k := by
  simp only [BigArr.missing, hp]

/-- A traversal in a state where every prefix of the key has a chunk changes
nothing and returns the chunk at the path of the key. -/
theorem index_chunk_of_missing_zero {α : Type} (s : BigArr α) (hs : s.IsTree) (k : Int)
    (h0 : s.missing k = 0) (leaf : Nat) (hw : s.heap.walk s.arr (keyPath k) = some leaf) :
    s.index_chunk k = some (s, { arr := leaf, ix := keySlot k }) := by
  obtain ⟨s2, res, hix, tr⟩ := index_chunk_traversed s hs k
  have hsame := tr.same h0
  subst hsame
  have hl := tr.leaf
  rw [hw] at hl
  have h1 : res.arr = leaf := (Option.some.inj hl).symm
  have h2 := tr.ix_eq
  rw [hix]
  cases res
  simp only at h1 h2
  rw [h1, h2]

/-- A slot that a traversal for `k` fills lies on the path of `k`. -/
theorem Traversed.slot_on_path {α : Type} {s s2 : BigArr α} {k : Int} {res : Res}
    (tr : Traversed s k s2 res) (p : List Nat) (hp : p.length ≤ 6) (a j : Nat)
    (v : Value α) (hw : s2.heap.walk s2.arr p = some a)
    (hv : (s2.heap.obj a).elems j = some v) (hnone : s.slotAt p j = none) :
    p ++ [j] = (keyPath k).take (p.length + 1) := by
  have d2 := IsTree.depthOK tr.tree
  obtain ⟨b, -, hwb⟩ := d2.2.2.2.2.1 p a hp hw j v hv
  have hlen : (p ++ [j]).length ≤ 7 := by simp; omega
  have hb2 : b < s2.heap.size := d2.2.2.1 _ b hlen hwb
  by_cases hold : b < s.heap.size
  · have h1 := tr.old _ b hlen hwb hold
    obtain ⟨a0, ha0, -, hs0⟩ := Heap.walk_snoc _ _ _ _ _ h1
    simp only [BigArr.slotAt, ha0, hs0] at hnone
    cases hnone
  · obtain ⟨j2, -, hj7, hwj, -⟩ := tr.created b (not_lt.mp hold) hb2
    have hlen2 : ((keyPath k).take j2).length ≤ 7 := by
      rw [List.length_take, keyPath_length]; omega
    have he := d2.2.2.2.1 _ _ b hlen hlen2 hwb hwj
    have hl := congrArg List.length he
    rw [List.length_take, keyPath_length, List.length_append, List.length_singleton,
      Nat.min_eq_left hj7] at hl
    rw [he, hl]

theorem walk_construct {α : Type} (p : List Nat) (hp : p ≠ []) :
    (BigArr.construct : BigArr α).heap.walk (BigArr.construct : BigArr α).arr p = none := by
  cases p with
  | nil => exact absurd rfl hp
  | cons b bs => rfl

theorem missing_construct {α : Type} (k : Int) :
    (BigArr.construct : BigArr α).missing k = 7 := by
  rw [BigArr.missing_eq]
  exact (Heap.missing_of_empty (BigArr.construct : BigArr α).heap 0 (Nat.lt_succ_self 0) rfl
    (keyPath k)).trans (keyPath_length k)

theorem take_keyPath_ne_nil (k : Int) (i : Nat) : (keyPath k).take (i + 1) ≠ [] := by
  intro h
  have := congrArg List.length h
  rw [List.length_take, keyPath_length] at this
  simp at this

/-- The chunks that a `get` creates: one for each prefix of the key that had
none. -/
theorem get_creates {α : Type} (s : BigArr α) (hs : s.IsTree) (k : Int) :
    ∃ s2 res, s.get k = some (s.peek k, s2) ∧ Traversed s k s2 res ∧
      ∀ i, i < 7 → ∃ a, s2.heap.walk s2.arr ((keyPath k).take (i + 1)) = some a ∧
        (s.heap.walk s.arr ((keyPath k).take (i + 1)) = none →
          s.heap.size ≤ a ∧ a < s2.heap.size) := by
  obtain ⟨s2, res, -, tr, hget⟩ := get_traversed s hs k
  refine ⟨s2, res, hget, tr, ?_⟩
  intro i hi
  obtain ⟨a, ha⟩ := Heap.walk_take s2.heap s2.arr (keyPath k) res.arr tr.leaf (i + 1)
  have hlen : ((keyPath k).take (i + 1)).length ≤ 7 := by
    rw [List.length_take, keyPath_length]; omega
  refine ⟨a, ha, fun hnone => ⟨?_, (IsTree.depthOK tr.tree).2.2.1 _ a hlen ha⟩⟩
  by_contra hlt
  have := tr.old _ a hlen ha (not_le.mp hlt)
  rw [hnone] at this; cases this

theorem index_chunk_log_succ_ref {α : Type} (n : Nat) (h : Heap α) (cur ix a : Nat)
    (hc : cur < h.size) (hs : (h.obj cur).elems (ix % 256) = some (Value.ref a)) :
    index_chunk_log (n + 1) h cur ix
      = { cur := cur, lx := ix % 256, slot := some (Value.ref a) }
          :: index_chunk_log n h a (ix / 256) := by
  have hr : h.read cur (ix % 256) = some (Value.ref a) := (Heap.read_eq_ref _ _ _ _).2 ⟨hc, hs⟩
  simp only [index_chunk_log, hr, hs]

theorem index_chunk_log_succ_hole {α : Type} (n : Nat) (h : Heap α) (cur ix : Nat)
    (hc : cur < h.size) (hs : (h.obj cur).elems (ix % 256) = none) :
    index_chunk_log (n + 1) h cur ix
      = { cur := cur, lx := ix % 256, slot := none }
          :: index_chunk_log n (h.grow cur (ix % 256)) h.size (ix / 256) := by
  have hr : h.read cur (ix % 256) = some Value.undefined := by
    rw [Heap.read_of_lt h cur _ hc, JSArray.get_of_none _ _ hs]
  have hr2 : (h.grow cur (ix % 256)).read cur (ix % 256) = some (Value.ref h.size) := by
    rw [Heap.read_eq_ref, Heap.grow_obj_cur]
    exact ⟨Nat.lt_succ_of_lt hc, by simp⟩
  simp only [index_chunk_log, hr, Heap.write_mk_chunk h cur _ hc, hr2, hs]

/-- The descent on a tree: `n` steps, through the `n` low bytes of `ix`, each
reading a slot of a live chunk that is a hole or a reference to a live chunk. -/
theorem index_chunk_log_spec {α : Type} (root : Nat) (n : Nat) :
    ∀ (h : Heap α) (lab : Nat → List Nat) (cur ix : Nat), HInv h root lab → cur < h.size →
      (lab cur).length + n ≤ 7 →
      ∃ h2 leaf, index_chunk_loop n h cur ix = some (h2, leaf, ix / 256 ^ n) ∧
        h.size ≤ h2.size ∧
        (index_chunk_log n h cur ix).length = n ∧
        (index_chunk_log n h cur ix).map Step.lx = lowBytes n ix ∧
        ∀ e ∈ index_chunk_log n h cur ix, e.cur < h2.size ∧
          (e.slot = none ∨ ∃ b, e.slot = some (Value.ref b) ∧ b < h2.size) := by
  induction n with
  | zero =>
    intro h lab cur ix _ _ _
    exact ⟨h, cur, by simp [index_chunk_loop], le_refl _, rfl, rfl,
      fun e he => by simp [index_chunk_log] at he⟩
  | succ n ih =>
    intro h lab cur ix inv hc hl
    have hdiv : ix / 256 / 256 ^ n = ix / 256 ^ (n + 1) := by
      rw [Nat.div_div_eq_div_mul, pow_succ']
    rcases inv.branch cur hc (by omega) (ix % 256) with hn | ⟨b, hb, hbs, hbl⟩
    · have inv1 := Heap.grow_inv inv cur (ix % 256) hc (by omega) hn
      have hnew : Function.update lab h.size (lab cur ++ [ix % 256]) h.size
          = lab cur ++ [ix % 256] := Function.update_same _ _ _
      obtain ⟨h2, leaf, hrun, hsz, hlen, hlx, hall⟩ :=
        ih (h.grow cur (ix % 256)) _ h.size (ix / 256) inv1 (Nat.lt_succ_self _)
          (by rw [hnew]; simp; omega)
      have hsz1 : h.size + 1 ≤ h2.size := hsz
      refine ⟨h2, leaf, ?_, by omega, ?_, ?_, ?_⟩
      · rw [index_chunk_loop_succ_hole n h cur ix hc hn, hrun, hdiv]
      · rw [index_chunk_log_succ_hole n h cur ix hc hn, List.length_cons, hlen]
      · rw [index_chunk_log_succ_hole n h cur ix hc hn, List.map_cons, hlx, lowBytes]
      · intro e he
        rw [index_chunk_log_succ_hole n h cur ix hc hn, List.mem_cons] at he
        rcases he with rfl | he
        · exact ⟨by show cur < h2.size; omega, Or.inl rfl⟩
        · exact hall e he
    · obtain ⟨h2, leaf, hrun, hsz, hlen, hlx, hall⟩ :=
        ih h lab b (ix / 256) inv hbs (by rw [hbl]; simp; omega)
      refine ⟨h2, leaf, ?_, hsz, ?_, ?_, ?_⟩
      · rw [index_chunk_loop_succ_ref n h cur ix b hc hb, hrun, hdiv]
      · rw [index_chunk_log_succ_ref n h cur ix b hc hb, List.length_cons, hlen]
      · rw [index_chunk_log_succ_ref n h cur ix b hc hb, List.map_cons, hlx, lowBytes]
      · intro e he
        rw [index_chunk_log_succ_ref n h cur ix b hc hb, List.mem_cons] at he
        rcases he with rfl | he
        · exact ⟨by show cur < h2.size; omega, Or.inr ⟨b, rfl, by omega⟩⟩
        · exact hall e he

theorem storeBigUint64_emod (k : Int) : storeBigUint64 (k % 2 ^ 64) = storeBigUint64 k := by
  simp only [storeBigUint64, Int.emod_emod]

theorem index_chunk_emod {α : Type} (s : BigArr α) (k : Int) :
    s.index_chunk (k % 2 ^ 64) = s.index_chunk k := by
  simp only [BigArr.index_chunk, storeBigUint64_emod]

theorem validKey_emod (k : Int) : validKey (k % 2 ^ 64) :=
  ⟨Int.emod_nonneg k (by norm_num), Int.emod_lt_of_pos k (by norm_num)⟩

theorem set_view {α : Type} (s : BigArr α) (hs : s.IsTree) (k : Int) (v : Value α) :
    ∃ s3, s.set k v = some (v, s3) ∧ SetView s k v s3 := by
  obtain ⟨s2, res, s3, -, tr, hset, wr⟩ := set_traversed s hs k v
  have d2 := IsTree.depthOK tr.tree
  have hpeek : ∀ k2, s3.peek k2
      = if keyPath k2 = keyPath k ∧ keySlot k2 = keySlot k then v else s.peek k2 := by
    obtain ⟨lab, inv⟩ := hs
    obtain ⟨h3, lab3, hset2, -, hp⟩ := set_spec s lab inv k v
    rw [hset] at hset2
    simp only [Option.some.injEq, Prod.mk.injEq, true_and] at hset2
    subst hset2
    exact hp
  refine ⟨s3, hset, ⟨wr.tree, by rw [wr.size_eq, tr.size_eq], ?_, ?_, hpeek⟩⟩
  · intro p hp
    rw [wr.walk_eq p hp]
    constructor
    · intro h
      obtain ⟨a, ha⟩ := Option.isSome_iff_exists.mp h
      by_cases hold : a < s.heap.size
      · left
        rw [tr.old p a hp ha hold]; rfl
      · right
        have ha2 : a < s2.heap.size := d2.2.2.1 p a hp ha
        obtain ⟨j, -, hj7, hwj, -⟩ := tr.created a (not_lt.mp hold) ha2
        have hlen : ((keyPath k).take j).length ≤ 7 := by
          rw [List.length_take, keyPath_length]; omega
        rw [d2.2.2.2.1 p _ a hp hlen ha hwj]
        exact List.take_prefix j _
    · rintro (h | h)
      · obtain ⟨a, ha⟩ := Option.isSome_iff_exists.mp h
        rw [tr.mono p a ha]; rfl
      · rw [List.prefix_iff_eq_take] at h
        obtain ⟨b, hb⟩ := Heap.walk_take s2.heap s2.arr (keyPath k) res.arr tr.leaf p.length
        rw [h, hb]; rfl
  · intro p hp i
    have hsl := tr.slots p hp i
    simp only [BigArr.slotAt] at hsl ⊢
    rw [wr.walk_eq p (le_of_eq hp)]
    cases hw : s2.heap.walk s2.arr p with
    | none =>
      rw [hw] at hsl
      have hne : ¬ (p = keyPath k ∧ i = keySlot k) := by
        rintro ⟨rfl, -⟩
        rw [tr.leaf] at hw; cases hw
      rw [if_neg hne, ← hsl]
    | some a =>
      rw [hw] at hsl
      simp only at hsl ⊢
      rw [wr.elems_eq a i, ← hsl, tr.ix_eq]
      have hiff : a = res.arr ↔ p = keyPath k := by
        constructor
        · rintro rfl
          exact d2.2.2.2.1 p _ _ (le_of_eq hp) (le_of_eq (keyPath_length k)) hw tr.leaf
        · rintro rfl
          rw [tr.leaf] at hw
          exact (Option.some.inj hw).symm
      simp only [hiff]

theorem isNone_eq_of_isSome_eq {o1 o2 : Option Nat} (h : o1.isSome = o2.isSome) :
    o1.isNone = o2.isNone := by
  cases o1 <;> cases o2 <;> simp_all

theorem countP_add_eq {β : Type} (f1 g1 f2 g2 : β → Bool) (l : List β)
    (h : ∀ x ∈ l, (if f1 x then 1 else 0) + (if g1 x then 1 else 0)
      = (if f2 x then 1 else 0) + (if g2 x then (1 : Nat) else 0)) :
    l.countP f1 + l.countP g1 = l.countP f2 + l.countP g2 := by
  induction l with
  | nil => rfl
  | cons x xs ih =>
    have h1 := h x (List.mem_cons_self _ _)
    have h2 := ih (fun y hy => h y (List.mem_cons_of_mem _ hy))
    simp only [List.countP_cons]
    omega

theorem take_prefix_keyPath_iff (k k2 : Int) (i : Nat) (hi : i < 7) :
    (keyPath k2).take (i + 1) <+: keyPath k ↔ (keyPath k2).take (i + 1) = (keyPath k).take (i + 1) := by
  have hlen : ((keyPath k2).take (i + 1)).length = i + 1 := by
    rw [List.length_take, keyPath_length]; omega
  constructor
  · intro h
    rw [List.prefix_iff_eq_take, hlen] at h
    exact h
  · intro h
    rw [h]; exact List.take_prefix _ _

/-- The chunks two sets create, counted in either order. -/
theorem missing_comm {α : Type} (s sa sb : BigArr α) (k k2 : Int) (v v2 : Value α)
    (va : SetView s k v sa) (vb : SetView s k2 v2 sb) :
    s.missing k + sa.missing k2 = s.missing k2 + sb.missing k := by
  simp only [BigArr.missing]
  apply countP_add_eq
  intro i hi
  have hi7 : i < 7 := List.mem_range.mp hi
  have hl1 : ((keyPath k).take (i + 1)).length ≤ 7 := by
    rw [List.length_take, keyPath_length]; omega
  have hl2 : ((keyPath k2).take (i + 1)).length ≤ 7 := by
    rw [List.length_take, keyPath_length]; omega
  have ha := va.has_iff _ hl2
  have hb := vb.has_iff _ hl1
  rw [take_prefix_keyPath_iff k k2 i hi7] at ha
  rw [take_prefix_keyPath_iff k2 k i hi7] at hb
  by_cases he : (keyPath k2).take (i + 1) = (keyPath k).take (i + 1)
  · have h1 : (sa.heap.walk sa.arr ((keyPath k2).take (i + 1))).isSome = true :=
      ha.mpr (Or.inr he)
    have h2 : (sb.heap.walk sb.arr ((keyPath k).take (i + 1))).isSome = true :=
      hb.mpr (Or.inr he.symm)
    rw [Option.isSome_iff_exists] at h1 h2
    obtain ⟨x1, hx1⟩ := h1
    obtain ⟨x2, hx2⟩ := h2
    rw [hx1, hx2, he]
    rfl
  · have hne : ¬ (keyPath k).take (i + 1) = (keyPath k2).take (i + 1) := fun h => he h.symm
    have ha2 : (sa.heap.walk sa.arr ((keyPath k2).take (i + 1))).isSome
        = (s.heap.walk s.arr ((keyPath k2).take (i + 1))).isSome := by
      rw [Bool.eq_iff_iff, ha]; simp [he]
    have hb2 : (sb.heap.walk sb.arr ((keyPath k).take (i + 1))).isSome
        = (s.heap.walk s.arr ((keyPath k).take (i + 1))).isSome := by
      rw [Bool.eq_iff_iff, hb]; simp [hne]
    rw [isNone_eq_of_isSome_eq ha2, isNone_eq_of_isSome_eq hb2]
    omega

/-- In two trees with chunks at the same paths, the branch slots agree. -/
theorem branch_slots_same {α : Type} (s t : BigArr α) (hs : s.IsTree) (ht : t.IsTree)
    (hhas : ∀ p, p.length ≤ 7 →
      ((s.heap.walk s.arr p).isSome ↔ (t.heap.walk t.arr p).isSome))
    (p : List Nat) (hp : p.length < 7) (i : Nat) :
    (s.slotAt p i = none ∧ t.slotAt p i = none) ∨
    ∃ a b, s.slotAt p i = some (Value.ref a) ∧ t.slotAt p i = some (Value.ref b) ∧
      s.heap.walk s.arr (p ++ [i]) = some a ∧ t.heap.walk t.arr (p ++ [i]) = some b := by
  have ds := IsTree.depthOK hs
  have dt := IsTree.depthOK ht
  have hlen : (p ++ [i]).length ≤ 7 := by simp; omega
  have key : ∀ (x y : BigArr α), x.DepthOK → y.DepthOK →
      (∀ q, q.length ≤ 7 → ((x.heap.walk x.arr q).isSome → (y.heap.walk y.arr q).isSome)) →
      ∀ a2, x.heap.walk x.arr (p ++ [i]) = some a2 →
        ∃ b2, y.slotAt p i = some (Value.ref b2) ∧ y.heap.walk y.arr (p ++ [i]) = some b2 := by
    intro x y _ _ hxy a2 hw
    have h1 := hxy _ hlen (by rw [hw]; rfl)
    obtain ⟨b2, hb2⟩ := Option.isSome_iff_exists.mp h1
    obtain ⟨b, hb, -, hsb⟩ := Heap.walk_snoc _ _ _ _ _ hb2
    exact ⟨b2, by simp only [BigArr.slotAt, hb, hsb], hb2⟩
  cases hsl : s.slotAt p i with
  | some w =>
    right
    simp only [BigArr.slotAt] at hsl
    cases hw : s.heap.walk s.arr p with
    | none => rw [hw] at hsl; cases hsl
    | some a =>
      rw [hw] at hsl
      obtain ⟨a2, ha2, hwa2⟩ := ds.2.2.2.2.1 p a (by omega) hw i w hsl
      obtain ⟨b2, hb2, hwb2⟩ := key s t ds dt (fun q hq => (hhas q hq).mp) a2 hwa2
      exact ⟨a2, b2, by rw [ha2], hb2, hwa2, hwb2⟩
  | none =>
    left
    refine ⟨rfl, ?_⟩
    cases htl : t.slotAt p i with
    | none => rfl
    | some w =>
      simp only [BigArr.slotAt] at htl
      cases hw : t.heap.walk t.arr p with
      | none => rw [hw] at htl; cases htl
      | some b =>
        rw [hw] at htl
        obtain ⟨b2, -, hwb2⟩ := dt.2.2.2.2.1 p b (by omega) hw i w htl
        obtain ⟨a2, ha2, -⟩ := key t s dt ds (fun q hq => (hhas q hq).mpr) b2 hwb2
        rw [hsl] at ha2
        cases ha2

/-- The addresses of the heap model depend on the order of two sets, which is
why `SameStructure` compares states through paths: after `set(0, "a")`;
`set(18446744073709551615, "b")` on a fresh structure the chunk for the first
byte 0 is the object created first, in the other order it is the object
created eighth. -/
theorem set_order_addresses :
    (((BigArr.construct : BigArr String).set 0 (Value.other "a")).bind
        (fun r => r.2.set 18446744073709551615 (Value.other "b"))).map
        (fun r => r.2.heap.walk r.2.arr [0]) = some (some 1) ∧
      (((BigArr.construct : BigArr String).set 18446744073709551615 (Value.other "b")).bind
        (fun r => r.2.set 0 (Value.other "a"))).map
        (fun r => r.2.heap.walk r.2.arr [0]) = some (some 8) := by
  decide

/-! ## The properties of the specification -/

/-- C1: in every structure reachable from `construct()`, for every key `k` in
`0 .. 2^64-1` and every value `v`, `set(k, v)` returns and `get(k)` called
right after it returns `v`. -/
theorem get_after_set {α : Type} (s : BigArr α) (hs : Reachable s) (k : Int) (hk : validKey k)
    (v : Value α) :
    ∃ r s1 s2, s.set k v = some (r, s1) ∧ s1.get k = some (v, s2) := by
  obtain ⟨s1, hset, t1, hp, -⟩ := tree_set s hs.isTree k hk v
  obtain ⟨s2, hget, -⟩ := tree_get s1 t1 k
  exact ⟨v, s1, s2, hset, by rw [hget, hp]⟩

/-- Witness for C1: `set(1234, "foo")` then `get(1234)` on a fresh structure. -/
theorem get_after_set_witness :
    Reachable (BigArr.construct : BigArr String) ∧ validKey 1234 ∧
      ∃ r s1 s2, (BigArr.construct : BigArr String).set 1234 (Value.other "foo") = some (r, s1) ∧
        s1.get 1234 = some (Value.other "foo", s2) :=
  ⟨reachable_construct, by decide,
    get_after_set BigArr.construct reachable_construct 1234 (by decide) (Value.other "foo")⟩

/-- C2: after any sequence of get and set calls on a fresh structure (keys in
`0 .. 2^64-1`) in which `set` was never called with key `k`, the sequence runs
to its end and `get(k)` returns `undefined`. -/
theorem get_of_never_set {α : Type} (k : Int) (hk : validKey k) (ops : List (Op α))
    (hv : ∀ op ∈ ops, validKey op.key) (hns : ∀ v, Op.set k v ∉ ops) :
    ∃ s s2, (BigArr.construct : BigArr α).run ops = some s ∧
      s.get k = some (Value.undefined, s2) := by
  obtain ⟨s, hrun, hs⟩ := run_spec ops (BigArr.construct : BigArr α) ⟨_, construct_inv⟩
  obtain ⟨s2, hget, -⟩ := tree_get s hs k
  have hp := run_peek_of_not_set k hk ops _ s ⟨_, construct_inv⟩ hv hns hrun
  rw [peek_construct] at hp
  exact ⟨s, s2, hrun, by rw [hget, hp]⟩

/-- Witness for C2: `get(9999)` on a fresh structure. -/
theorem get_of_never_set_witness :
    validKey 9999 ∧ (∀ op ∈ ([] : List (Op String)), validKey op.key) ∧
      (∀ v, Op.set 9999 v ∉ ([] : List (Op String))) ∧
      ∃ s s2, (BigArr.construct : BigArr String).run [] = some s ∧
        s.get 9999 = some (Value.undefined, s2) :=
  ⟨by decide, by simp, by simp, get_of_never_set 9999 (by decide) [] (by simp) (by simp)⟩

/-- C3: in every reachable structure, for distinct keys `k ≠ k2` in
`0 .. 2^64-1` and every value `v`, `set(k, v)` does not change the result of
`get(k2)`: what `get(k2)` returns before the set it returns after it, whether or
not that earlier `get(k2)` was actually called. -/
theorem set_frame {α : Type} (s : BigArr α) (hs : Reachable s) (k k2 : Int) (hk : validKey k)
    (hk2 : validKey k2) (hne : k ≠ k2) (v : Value α) :
    ∃ r sa, s.get k2 = some (r, sa) ∧
      (∃ r1 s1 sb, s.set k v = some (r1, s1) ∧ s1.get k2 = some (r, sb)) ∧
      (∃ r1 s1 sb, sa.set k v = some (r1, s1) ∧ s1.get k2 = some (r, sb)) := by
  obtain ⟨sa, hget, ta, -, -, hpa⟩ := tree_get s hs.isTree k2
  refine ⟨s.peek k2, sa, hget, ?_, ?_⟩
  · obtain ⟨s1, hset, t1, -, hp1⟩ := tree_set s hs.isTree k hk v
    obtain ⟨sb, hget1, -⟩ := tree_get s1 t1 k2
    exact ⟨v, s1, sb, hset, by rw [hget1, hp1 k2 hk2 (Ne.symm hne)]⟩
  · obtain ⟨s1, hset, t1, -, hp1⟩ := tree_set sa ta k hk v
    obtain ⟨sb, hget1, -⟩ := tree_get s1 t1 k2
    exact ⟨v, s1, sb, hset, by rw [hget1, hp1 k2 hk2 (Ne.symm hne), hpa k2]⟩

/-- Witness for C3: `set(256, "x")` on a fresh structure leaves `get(0)` unset. -/
theorem set_frame_witness :
    Reachable (BigArr.construct : BigArr String) ∧ validKey 256 ∧ validKey 0 ∧ (256 : Int) ≠ 0 ∧
      ∃ sa, (BigArr.construct : BigArr String).get 0 = some (Value.undefined, sa) ∧
        (∃ r1 s1 sb, (BigArr.construct : BigArr String).set 256 (Value.other "x") = some (r1, s1) ∧
          s1.get 0 = some (Value.undefined, sb)) ∧
        (∃ r1 s1 sb, sa.set 256 (Value.other "x") = some (r1, s1) ∧
          s1.get 0 = some (Value.undefined, sb)) := by
  obtain ⟨r, sa, hg, h1, h2⟩ :=
    set_frame (BigArr.construct : BigArr String) reachable_construct 256 0 (by decide)
      (by decide) (by decide) (Value.other "x")
  have hr : ((BigArr.construct : BigArr String).get 0).map Prod.fst = some Value.undefined := by
    decide
  rw [hg] at hr
  simp only [Option.map_some', Option.some.injEq] at hr
  subst hr
  exact ⟨reachable_construct, by decide, by decide, by decide, sa, hg, h1, h2⟩

/-- C4: in every reachable structure, for every key `k` in `0 .. 2^64-1` and
values `v1`, `v2`: after `set(k, v1)` and then `set(k, v2)`, `get(k)` returns
`v2`. -/
theorem set_overwrites {α : Type} (s : BigArr α) (hs : Reachable s) (k : Int) (hk : validKey k)
    (v1 v2 : Value α) :
    ∃ r1 s1 r2 s2 s3, s.set k v1 = some (r1, s1) ∧ s1.set k v2 = some (r2, s2) ∧
      s2.get k = some (v2, s3) := by
  obtain ⟨s1, hset1, t1, -, -⟩ := tree_set s hs.isTree k hk v1
  obtain ⟨s2, hset2, t2, hp2, -⟩ := tree_set s1 t1 k hk v2
  obtain ⟨s3, hget, -⟩ := tree_get s2 t2 k
  exact ⟨v1, s1, v2, s2, s3, hset1, hset2, by rw [hget, hp2]⟩

/-- Witness for C4: `set(5, "p")`, `set(5, "q")`, `get(5)` on a fresh structure. -/
theorem set_overwrites_witness :
    Reachable (BigArr.construct : BigArr String) ∧ validKey 5 ∧
      ∃ r1 s1 r2 s2 s3,
        (BigArr.construct : BigArr String).set 5 (Value.other "p") = some (r1, s1) ∧
        s1.set 5 (Value.other "q") = some (r2, s2) ∧ s2.get 5 = some (Value.other "q", s3) :=
  ⟨reachable_construct, by decide,
    set_overwrites BigArr.construct reachable_construct 5 (by decide) (Value.other "p")
      (Value.other "q")⟩

/-- C5: for every key `k` in `0 .. 2^64-1`, `index_chunk` returns the chunk
reached from the root through the first seven of the slot indices of `k`,
together with the eighth as `ix`; the eight indices are the bytes of `k`, the
most significant first, each in `0 .. 255`, with
`k = Σ i < 8, b i * 256 ^ (7 - i)`; distinct keys have distinct byte sequences. -/
theorem slotIndices_bytes {α : Type} (s : BigArr α) (hs : Reachable s) (k : Int)
    (hk : validKey k) :
    (∃ s2 res, s.index_chunk k = some (s2, res) ∧
      s2.heap.walk s2.arr ((slotIndices k).take 7) = some res.arr ∧
      (slotIndices k).drop 7 = [res.ix]) ∧
    slotIndices k = [k.toNat / 256 ^ 7 % 256, k.toNat / 256 ^ 6 % 256, k.toNat / 256 ^ 5 % 256,
      k.toNat / 256 ^ 4 % 256, k.toNat / 256 ^ 3 % 256, k.toNat / 256 ^ 2 % 256,
      k.toNat / 256 ^ 1 % 256, k.toNat / 256 ^ 0 % 256] ∧
    (∀ b ∈ slotIndices k, b < 256) ∧
    ((∑ i ∈ Finset.range 8, (slotIndices k).getD i 0 * 256 ^ (7 - i) : Nat) : Int) = k ∧
    (∀ k2, validKey k2 → k2 ≠ k → slotIndices k2 ≠ slotIndices k) := by
  have hexp := slotIndices_explicit k hk
  refine ⟨?_, hexp, ?_, ?_, ?_⟩
  · obtain ⟨lab, inv⟩ := hs.isTree
    obtain ⟨h2, lab2, leaf, hix, inv2, -, hleaf, hlab⟩ := index_chunk_spec s lab inv k
    refine ⟨_, _, hix, ?_, ?_⟩
    · have : (slotIndices k).take 7 = keyPath k := by
        rw [slotIndices, List.take_left' (keyPath_length k)]
      rw [this, ← hlab]
      exact inv2.walk_lab leaf hleaf
    · rw [slotIndices, List.drop_left' (keyPath_length k)]
  · intro b hb
    rw [slotIndices_eq] at hb
    exact lowBytes_lt 8 _ b hb
  · have hn : k.toNat < 2 ^ 64 := by
      have := hk.2
      omega
    have hsum := bytes_sum k.toNat hn
    rw [hexp]
    simp only [Finset.sum_range_succ, Finset.sum_range_zero, List.getD_cons_zero,
      List.getD_cons_succ, zero_add]
    have h0 : ((k.toNat : Nat) : Int) = k := Int.toNat_of_nonneg hk.1
    rw [← h0]
    congr 1
  · intro k2 hk2 hne he
    exact hne (slotIndices_inj k k2 hk hk2 he)

/-- Witness for C5: the key `1234 = 4 * 256 + 210`. -/
theorem slotIndices_bytes_witness :
    Reachable (BigArr.construct : BigArr String) ∧ validKey 1234 ∧
      slotIndices 1234 = [0, 0, 0, 0, 0, 0, 4, 210] :=
  ⟨reachable_construct, by decide,
    (slotIndices_bytes (BigArr.construct : BigArr String) reachable_construct 1234
      (by decide)).2.1⟩

/-- C6, counterexample: on a fresh structure, after `set(0, undefined)` the call
`get(0)` returns `undefined`, which is also what `get(1)` returns for the key 1
that was never set: the two results cannot be told apart. -/
theorem unset_result_counterexample :
    Reachable (BigArr.construct : BigArr String) ∧ validKey 0 ∧ validKey 1 ∧
      ((BigArr.construct : BigArr String).set 0 Value.undefined).bind
        (fun r => (r.2.get 0).map Prod.fst) = some Value.undefined ∧
      ((BigArr.construct : BigArr String).set 0 Value.undefined).bind
        (fun r => (r.2.get 1).map Prod.fst) = some Value.undefined :=
  ⟨reachable_construct, by decide, by decide, by decide, by decide⟩

/-- C6, amended: after any sequence of calls on a fresh structure that never
sets key `k2`, and a following `set(k, v)` with `k ≠ k2` and a value `v` other
than `undefined`, the result of `get(k)` differs from the result of `get(k2)`. -/
theorem unset_result_distinct {α : Type} (ops : List (Op α))
    (hv : ∀ op ∈ ops, validKey op.key) (k k2 : Int) (hk : validKey k) (hk2 : validKey k2)
    (hne : k2 ≠ k) (hns : ∀ w, Op.set k2 w ∉ ops) (v : Value α) (hdef : v ≠ Value.undefined) :
    ∃ s r s1 r1 s2 r2 s3, (BigArr.construct : BigArr α).run ops = some s ∧
      s.set k v = some (r, s1) ∧ s1.get k = some (r1, s2) ∧ s1.get k2 = some (r2, s3) ∧
      r2 = Value.undefined ∧ r1 ≠ r2 := by
  obtain ⟨s, hrun, hs⟩ := run_spec ops (BigArr.construct : BigArr α) ⟨_, construct_inv⟩
  have hp := run_peek_of_not_set k2 hk2 ops _ s ⟨_, construct_inv⟩ hv hns hrun
  rw [peek_construct] at hp
  obtain ⟨s1, hset, t1, hp1, hf1⟩ := tree_set s hs k hk v
  obtain ⟨s2, hget, -⟩ := tree_get s1 t1 k
  obtain ⟨s3, hget2, -⟩ := tree_get s1 t1 k2
  refine ⟨s, v, s1, s1.peek k, s2, s1.peek k2, s3, hrun, hset, hget, hget2, ?_, ?_⟩
  · rw [hf1 k2 hk2 hne, hp]
  · rw [hp1, hf1 k2 hk2 hne, hp]; exact hdef

/-- Witness for the amended C6: `set(1234, "foo")` on a fresh structure, against
the key 9999. -/
theorem unset_result_distinct_witness :
    (∀ op ∈ ([] : List (Op String)), validKey op.key) ∧ validKey 1234 ∧ validKey 9999 ∧
      (9999 : Int) ≠ 1234 ∧ (∀ w, Op.set 9999 w ∉ ([] : List (Op String))) ∧
      Value.other "foo" ≠ (Value.undefined : Value String) ∧
      ∃ s r s1 r1 s2 r2 s3, (BigArr.construct : BigArr String).run [] = some s ∧
        s.set 1234 (Value.other "foo") = some (r, s1) ∧ s1.get 1234 = some (r1, s2) ∧
        s1.get 9999 = some (r2, s3) ∧ r2 = Value.undefined ∧ r1 ≠ r2 :=
  ⟨by simp, by decide, by decide, by decide, by simp, by decide,
    unset_result_distinct [] (by simp) 1234 9999 (by decide) (by decide) (by decide) (by simp)
      (Value.other "foo") (by decide)⟩

/-- C7, counterexample: on a fresh structure the path of key 9999 hits an empty
slot of the root, `get(9999)` returns `undefined`, and the structure after the
call has 8 chunks where it had 1: it is not the structure before the call. -/
theorem get_allocates_counterexample :
    Reachable (BigArr.construct : BigArr String) ∧ validKey 9999 ∧
    (∃ i, i ≤ 6 ∧ (BigArr.construct : BigArr String).heap.walk
        (BigArr.construct : BigArr String).arr ((keyPath 9999).take (i + 1)) = none) ∧
      ∃ s2, (BigArr.construct : BigArr String).get 9999 = some (Value.undefined, s2) ∧
        s2.heap.size = 8 ∧ (BigArr.construct : BigArr String).heap.size = 1 ∧
        s2 ≠ BigArr.construct := by
  refine ⟨reachable_construct, by decide, ⟨0, by decide, by decide⟩, ?_⟩
  have h : ((BigArr.construct : BigArr String).get 9999).map (fun r => (r.1, r.2.heap.size))
      = some (Value.undefined, 8) := by decide
  cases hg : (BigArr.construct : BigArr String).get 9999 with
  | none => rw [hg] at h; cases h
  | some r =>
    rw [hg] at h
    simp only [Option.map_some', Option.some.injEq, Prod.mk.injEq] at h
    obtain ⟨r1, s2⟩ := r
    simp only at h
    refine ⟨s2, by rw [h.1], h.2, rfl, ?_⟩
    intro he
    have h8 := h.2
    rw [he] at h8
    exact absurd h8 (by decide)

/-- C7, amended: in every reachable structure, for a key `k` in `0 .. 2^64-1`
whose path hits an empty branch slot, `get(k)` returns `undefined`; it does
allocate (the structure after the call has more chunks than before), but every
slot occupied before keeps its content and every `get` returns after the call
what it would have returned before it. -/
theorem get_missing_branch {α : Type} (s : BigArr α) (hs : Reachable s) (k : Int)
    (_hk : validKey k)
    (hmiss : ∃ i, i ≤ 6 ∧ s.heap.walk s.arr ((keyPath k).take (i + 1)) = none) :
    ∃ s2, s.get k = some (Value.undefined, s2) ∧ s.heap.size < s2.heap.size ∧
      (∀ a, a < s.heap.size → ∀ i v, (s.heap.obj a).elems i = some v →
        (s2.heap.obj a).elems i = some v) ∧
      ∀ k2, ∃ r sa sb, s.get k2 = some (r, sa) ∧ s2.get k2 = some (r, sb) := by
  obtain ⟨i, -, hi⟩ := hmiss
  have hnone := walk_none_of_take s.heap s.arr (keyPath k) (i + 1) hi
  obtain ⟨s2, hget, t2, hsize, hkeep, hp⟩ := get_of_missing s hs.isTree k hnone
  refine ⟨s2, hget, hsize, hkeep, ?_⟩
  intro k2
  obtain ⟨sa, hga, -⟩ := tree_get s hs.isTree k2
  obtain ⟨sb, hgb, -⟩ := tree_get s2 t2 k2
  exact ⟨s.peek k2, sa, sb, hga, by rw [hgb, hp k2]⟩

/-- Witness for the amended C7: `get(9999)` on a fresh structure. -/
theorem get_missing_branch_witness :
    Reachable (BigArr.construct : BigArr String) ∧ validKey 9999 ∧
      (∃ i, i ≤ 6 ∧ (BigArr.construct : BigArr String).heap.walk
        (BigArr.construct : BigArr String).arr ((keyPath 9999).take (i + 1)) = none) ∧
      ∃ s2, (BigArr.construct : BigArr String).get 9999 = some (Value.undefined, s2) ∧
        (BigArr.construct : BigArr String).heap.size < s2.heap.size :=
  ⟨reachable_construct, by decide, ⟨0, by decide, by decide⟩,
    (get_missing_branch (BigArr.construct : BigArr String) reachable_construct 9999 (by decide)
      ⟨0, by decide, by decide⟩).imp (fun _ h => ⟨h.1, h.2.1⟩)⟩

/-- C8: in every reachable structure and for all values `a`, `b`: after
`set(0, a)` and `set(2^64-1, b)`, in either order, `get(0)` returns `a` and
`get(2^64-1)` returns `b`; key 0 decomposes into eight bytes 0 and key
18446744073709551615 into eight bytes 255. -/
theorem boundary_keys {α : Type} (s : BigArr α) (hs : Reachable s) (a b : Value α) :
    (∃ r1 s1 r2 s2 s3 s4 s5, s.set 0 a = some (r1, s1) ∧
      s1.set 18446744073709551615 b = some (r2, s2) ∧ s2.get 0 = some (a, s3) ∧
      s3.get 18446744073709551615 = some (b, s4) ∧
      s2.get 18446744073709551615 = some (b, s5)) ∧
    (∃ r1 s1 r2 s2 s3 s4 s5, s.set 18446744073709551615 b = some (r1, s1) ∧
      s1.set 0 a = some (r2, s2) ∧ s2.get 0 = some (a, s3) ∧
      s3.get 18446744073709551615 = some (b, s4) ∧
      s2.get 18446744073709551615 = some (b, s5)) ∧
    slotIndices 0 = [0, 0, 0, 0, 0, 0, 0, 0] ∧
    slotIndices 18446744073709551615 = [255, 255, 255, 255, 255, 255, 255, 255] ∧
    (18446744073709551615 : Int) = 2 ^ 64 - 1 := by
  have hk0 : validKey 0 := by decide
  have hkm : validKey 18446744073709551615 := by decide
  have hne : (18446744073709551615 : Int) ≠ 0 := by decide
  refine ⟨?_, ?_, by decide, by decide, by norm_num⟩
  · obtain ⟨s1, hset1, t1, hp1, -⟩ := tree_set s hs.isTree 0 hk0 a
    obtain ⟨s2, hset2, t2, hp2, hf2⟩ := tree_set s1 t1 _ hkm b
    obtain ⟨s3, hg3, t3, -, -, hp3⟩ := tree_get s2 t2 0
    obtain ⟨s4, hg4, -⟩ := tree_get s3 t3 18446744073709551615
    obtain ⟨s5, hg5, -⟩ := tree_get s2 t2 18446744073709551615
    refine ⟨a, s1, b, s2, s3, s4, s5, hset1, hset2, ?_, ?_, ?_⟩
    · rw [hg3, hf2 0 hk0 hne.symm, hp1]
    · rw [hg4, hp3, hp2]
    · rw [hg5, hp2]
  · obtain ⟨s1, hset1, t1, hp1, -⟩ := tree_set s hs.isTree _ hkm b
    obtain ⟨s2, hset2, t2, hp2, hf2⟩ := tree_set s1 t1 0 hk0 a
    obtain ⟨s3, hg3, t3, -, -, hp3⟩ := tree_get s2 t2 0
    obtain ⟨s4, hg4, -⟩ := tree_get s3 t3 18446744073709551615
    obtain ⟨s5, hg5, -⟩ := tree_get s2 t2 18446744073709551615
    refine ⟨b, s1, a, s2, s3, s4, s5, hset1, hset2, ?_, ?_, ?_⟩
    · rw [hg3, hp2]
    · rw [hg4, hp3, hf2 _ hkm hne, hp1]
    · rw [hg5, hf2 _ hkm hne, hp1]

/-- Witness for C8: `set(0, "a")` and `set(18446744073709551615, "b")` on a
fresh structure. -/
theorem boundary_keys_witness :
    Reachable (BigArr.construct : BigArr String) ∧
      ∃ r1 s1 r2 s2 s3 s4 s5,
        (BigArr.construct : BigArr String).set 0 (Value.other "a") = some (r1, s1) ∧
        s1.set 18446744073709551615 (Value.other "b") = some (r2, s2) ∧
        s2.get 0 = some (Value.other "a", s3) ∧
        s3.get 18446744073709551615 = some (Value.other "b", s4) ∧
        s2.get 18446744073709551615 = some (Value.other "b", s5) :=
  ⟨reachable_construct,
    (boundary_keys (BigArr.construct : BigArr String) reachable_construct (Value.other "a")
      (Value.other "b")).1⟩

/-- C9: every structure reachable from `construct()` by get and set calls with
keys in `0 .. 2^64-1` satisfies the depth invariant, and so does the structure
after any further get or set call, which always returns: the root chunk exists,
chunks lie at depths 0 to 7 only, and the occupied slots of the chunks at
depths 0 to 6 hold chunks. -/
theorem depth_invariant {α : Type} (s : BigArr α) (hs : Reachable s) :
    s.DepthOK ∧
      ∀ op : Op α, validKey op.key → ∃ r s2, s.exec op = some (r, s2) ∧ s2.DepthOK := by
  refine ⟨IsTree.depthOK hs.isTree, ?_⟩
  intro op _
  obtain ⟨lab, inv⟩ := hs.isTree
  obtain ⟨r, s2, lab2, hex, inv2, -⟩ := exec_spec s lab inv op
  exact ⟨r, s2, hex, IsTree.depthOK ⟨lab2, inv2⟩⟩

/-- Witness for C9: the fresh structure. -/
theorem depth_invariant_witness :
    Reachable (BigArr.construct : BigArr String) ∧ (BigArr.construct : BigArr String).DepthOK :=
  ⟨reachable_construct, (depth_invariant BigArr.construct reachable_construct).1⟩

/-- C10: in every reachable structure, for two keys `k`, `k2` in `0 .. 2^64-1`
that differ only in their least significant byte: they have the same 7-byte
path and different leaf slots, `index_chunk(k)` and then `index_chunk(k2)`
return the same leaf chunk with different `ix`, and after `set(k, v)` and
`set(k2, v2)`, in either order, `get(k)` returns `v` and `get(k2)` returns
`v2`. -/
theorem same_leaf_chunk {α : Type} (s : BigArr α) (hs : Reachable s) (k k2 : Int)
    (hk : validKey k) (hk2 : validKey k2) (hne : k ≠ k2) (hpre : k / 256 = k2 / 256)
    (v v2 : Value α) :
    keyPath k = keyPath k2 ∧ keySlot k ≠ keySlot k2 ∧
    (∃ s1 res s2 res2, s.index_chunk k = some (s1, res) ∧
      s1.index_chunk k2 = some (s2, res2) ∧ res2.arr = res.arr ∧ res2.ix ≠ res.ix ∧
      s1.heap.walk s1.arr (keyPath k) = some res.arr ∧
      res.ix = keySlot k ∧ res2.ix = keySlot k2) ∧
    (∃ r1 s1 r2 s2 s3 s4, s.set k v = some (r1, s1) ∧ s1.set k2 v2 = some (r2, s2) ∧
      s2.get k = some (v, s3) ∧ s3.get k2 = some (v2, s4)) ∧
    (∃ r1 s1 r2 s2 s3 s4, s.set k2 v2 = some (r1, s1) ∧ s1.set k v = some (r2, s2) ∧
      s2.get k = some (v, s3) ∧ s3.get k2 = some (v2, s4)) := by
  have hpath : keyPath k = keyPath k2 := by
    rw [keyPath_eq, keyPath_eq, validKey_toNat k hk, validKey_toNat k2 hk2]
    have : k.toNat / 256 = k2.toNat / 256 := by
      have := hk.1
      have := hk2.1
      omega
    rw [this]
  have hslot : keySlot k ≠ keySlot k2 := by
    rw [keySlot_eq, keySlot_eq, validKey_toNat k hk, validKey_toNat k2 hk2]
    have := hk.1
    have := hk2.1
    omega
  refine ⟨hpath, hslot, ?_, ?_, ?_⟩
  · obtain ⟨lab, inv⟩ := hs.isTree
    obtain ⟨h2, lab2, leaf, hix, inv2, -, hleaf, hlab⟩ := index_chunk_spec s lab inv k
    obtain ⟨h3, lab3, leaf3, hix3, inv3, ext3, hleaf3, hlab3⟩ :=
      index_chunk_spec { heap := h2, arr := s.arr } lab2 inv2 k2
    refine ⟨_, _, _, _, hix, hix3, ?_, Ne.symm hslot, ?_, rfl, rfl⟩
    · have h1 : h3.walk s.arr (keyPath k) = some leaf := by
        have := inv3.walk_lab leaf (lt_of_lt_of_le hleaf ext3.size_le)
        rwa [ext3.lab_eq leaf hleaf, hlab] at this
      have h2 : h3.walk s.arr (keyPath k) = some leaf3 := by
        have := inv3.walk_lab leaf3 hleaf3
        rwa [hlab3, ← hpath] at this
      rw [h1] at h2
      exact (Option.some.inj h2).symm
    · have := inv2.walk_lab leaf hleaf
      rwa [hlab] at this
  · obtain ⟨s1, hset1, t1, hp1, -⟩ := tree_set s hs.isTree k hk v
    obtain ⟨s2, hset2, t2, hp2, hf2⟩ := tree_set s1 t1 k2 hk2 v2
    obtain ⟨s3, hg3, t3, -, -, hp3⟩ := tree_get s2 t2 k
    obtain ⟨s4, hg4, -⟩ := tree_get s3 t3 k2
    refine ⟨v, s1, v2, s2, s3, s4, hset1, hset2, ?_, ?_⟩
    · rw [hg3, hf2 k hk hne, hp1]
    · rw [hg4, hp3, hp2]
  · obtain ⟨s1, hset1, t1, hp1, -⟩ := tree_set s hs.isTree k2 hk2 v2
    obtain ⟨s2, hset2, t2, hp2, hf2⟩ := tree_set s1 t1 k hk v
    obtain ⟨s3, hg3, t3, -, -, hp3⟩ := tree_get s2 t2 k
    obtain ⟨s4, hg4, -⟩ := tree_get s3 t3 k2
    refine ⟨v2, s1, v, s2, s3, s4, hset1, hset2, ?_, ?_⟩
    · rw [hg3, hp2]
    · rw [hg4, hp3, hf2 k2 hk2 (Ne.symm hne), hp1]

/-- Witness for C10: the keys 0x1200 and 0x12ff on a fresh structure. -/
theorem same_leaf_chunk_witness :
    Reachable (BigArr.construct : BigArr String) ∧ validKey 4608 ∧ validKey 4863 ∧
      (4608 : Int) ≠ 4863 ∧ (4608 : Int) / 256 = 4863 / 256 ∧
      keyPath 4608 = keyPath 4863 ∧ keySlot 4608 ≠ keySlot 4863 :=
  ⟨reachable_construct, by decide, by decide, by decide, by decide,
    (same_leaf_chunk (BigArr.construct : BigArr String) reachable_construct 4608 4863 (by decide)
      (by decide) (by decide) (by decide) (Value.other "v") (Value.other "w")).1,
    (same_leaf_chunk (BigArr.construct : BigArr String) reachable_construct 4608 4863 (by decide)
      (by decide) (by decide) (by decide) (Value.other "v") (Value.other "w")).2.1⟩

/-- C11: in every reachable structure a traversal for a key `k` in
`0 .. 2^64-1` (by `index_chunk`, and so by `get` and `set`) creates exactly one
chunk for each byte prefix `b0..bi` (`i` in `0 .. 6`) of `k` that has no chunk
yet, at most 7 in all, and reuses the chunks that are there; it creates none
when every prefix has its chunk, as on a second call with the same key or with
a key that shares the first 7 bytes. -/
theorem chunk_created_once {α : Type} (s : BigArr α) (hs : Reachable s) (k : Int)
    (hk : validKey k) :
    ∃ s2 res, s.index_chunk k = some (s2, res) ∧
      s2.heap.size = s.heap.size + s.missing k ∧ s.missing k ≤ 7 ∧
      (∀ i, i < 7 → ∃ a, s2.heap.walk s2.arr ((keyPath k).take (i + 1)) = some a ∧
        (s.heap.walk s.arr ((keyPath k).take (i + 1)) = some a ∨
          (s.heap.walk s.arr ((keyPath k).take (i + 1)) = none ∧ s.heap.size ≤ a))) ∧
      (∀ a, s.heap.size ≤ a → a < s2.heap.size → ∃ i, i < 7 ∧
        s.heap.walk s.arr ((keyPath k).take (i + 1)) = none ∧
        s2.heap.walk s2.arr ((keyPath k).take (i + 1)) = some a) ∧
      (∀ p a, s.heap.walk s.arr p = some a → s2.heap.walk s2.arr p = some a) ∧
      (s.missing k = 0 → s2 = s) ∧
      s2.missing k = 0 ∧
      s2.index_chunk k = some (s2, res) ∧
      (∀ k2, validKey k2 → k2 / 256 = k / 256 →
        ∃ res2, s2.index_chunk k2 = some (s2, res2) ∧ res2.arr = res.arr) ∧
      (∃ r, s.get k = some (r, s2)) ∧
      (∀ v, ∃ s3, s.set k v = some (v, s3) ∧ s3.heap.size = s2.heap.size ∧
        ∀ p, p.length ≤ 7 → s3.heap.walk s3.arr p = s2.heap.walk s2.arr p) := by
  obtain ⟨s2, res, hix, tr, hget⟩ := get_traversed s hs.isTree k
  have d1 := IsTree.depthOK hs.isTree
  have hres : res = { arr := res.arr, ix := keySlot k } := by
    cases res
    simp only [Res.mk.injEq, true_and]
    exact tr.ix_eq
  refine ⟨s2, res, hix, tr.size_eq, BigArr.missing_le_seven s k, ?_, ?_, tr.mono, tr.same,
    tr.missing_zero, ?_, ?_, ⟨_, hget⟩, ?_⟩
  · intro i _
    obtain ⟨a, ha⟩ := Heap.walk_take s2.heap s2.arr (keyPath k) res.arr tr.leaf (i + 1)
    refine ⟨a, ha, ?_⟩
    cases hw : s.heap.walk s.arr ((keyPath k).take (i + 1)) with
    | some a0 =>
      left
      have := tr.mono _ _ hw
      rw [ha] at this
      rw [Option.some.inj this]
    | none =>
      right
      refine ⟨rfl, ?_⟩
      by_contra hlt
      have hlen : ((keyPath k).take (i + 1)).length ≤ 7 := by
        rw [List.length_take, keyPath_length]; omega
      have := tr.old _ a hlen ha (not_le.mp hlt)
      rw [hw] at this; cases this
  · intro a ha1 ha2
    obtain ⟨j, hj0, hj7, hw2, hw⟩ := tr.created a ha1 ha2
    refine ⟨j - 1, by omega, ?_, ?_⟩
    · rw [Nat.sub_add_cancel hj0]; exact hw
    · rw [Nat.sub_add_cancel hj0]; exact hw2
  · rw [hres]
    exact index_chunk_of_missing_zero s2 tr.tree k tr.missing_zero res.arr tr.leaf
  · intro k2 hk2 hdiv
    have hpath : keyPath k2 = keyPath k := by
      rw [keyPath_eq, keyPath_eq, validKey_toNat k hk, validKey_toNat k2 hk2]
      have : k2.toNat / 256 = k.toNat / 256 := by
        have := hk.1
        have := hk2.1
        omega
      rw [this]
    refine ⟨{ arr := res.arr, ix := keySlot k2 }, ?_, rfl⟩
    apply index_chunk_of_missing_zero s2 tr.tree k2
    · rw [BigArr.missing_congr s2 k k2 hpath]; exact tr.missing_zero
    · rw [hpath]; exact tr.leaf
  · intro v
    obtain ⟨s2b, resb, s3, hixb, -, hset, wr⟩ := set_traversed s hs.isTree k v
    rw [hix] at hixb
    simp only [Option.some.injEq, Prod.mk.injEq] at hixb
    obtain ⟨h1, h2⟩ := hixb
    subst h1
    subst h2
    exact ⟨s3, hset, wr.size_eq, wr.walk_eq⟩

/-- Witness for C11: the key 1234 on a fresh structure. -/
theorem chunk_created_once_witness :
    Reachable (BigArr.construct : BigArr String) ∧ validKey 1234 ∧
      ∃ s2 res, (BigArr.construct : BigArr String).index_chunk 1234 = some (s2, res) ∧
        s2.heap.size
          = (BigArr.construct : BigArr String).heap.size
            + (BigArr.construct : BigArr String).missing 1234 ∧
        s2.index_chunk 1234 = some (s2, res) :=
  ⟨reachable_construct, by decide,
    (chunk_created_once (BigArr.construct : BigArr String) reachable_construct 1234
      (by decide)).imp (fun _ h => h.imp (fun _ h2 => ⟨h2.1, h2.2.1, h2.2.2.2.2.2.2.2.2.1⟩))⟩

/-- C12: in every reachable structure, across every get or set call with a key
in `0 .. 2^64-1`, every byte prefix that had a chunk still has the same chunk,
no chunk is lost, and every slot that was occupied is still occupied with the
same content, except that the leaf slot addressed by a `set` holds the value
that was set. -/
theorem chunks_persist {α : Type} (s : BigArr α) (hs : Reachable s) (op : Op α)
    (hk : validKey op.key) :
    ∃ r s2, s.exec op = some (r, s2) ∧ s.heap.size ≤ s2.heap.size ∧
      (∀ p a, p.length ≤ 7 → s.heap.walk s.arr p = some a →
        s2.heap.walk s2.arr p = some a) ∧
      (∀ a, a < s.heap.size → ∀ i v, (s.heap.obj a).elems i = some v →
        (s2.heap.obj a).elems i = some v ∨
        ∃ w, op = Op.set op.key w ∧ (s2.heap.obj a).elems i = some w ∧
          s2.heap.walk s2.arr (keyPath op.key) = some a ∧ i = keySlot op.key) := by
  cases op with
  | get k =>
    obtain ⟨s2, res, -, tr, hget⟩ := get_traversed s hs.isTree k
    refine ⟨_, s2, hget, ?_, fun p a _ hw => tr.mono p a hw, ?_⟩
    · rw [tr.size_eq]; exact Nat.le_add_right _ _
    · intro a ha i v hv
      exact Or.inl (tr.keep a ha i v hv)
  | set k w =>
    obtain ⟨s2, res, s3, -, tr, hset, wr⟩ := set_traversed s hs.isTree k w
    refine ⟨_, s3, hset, ?_, ?_, ?_⟩
    · rw [wr.size_eq, tr.size_eq]; exact Nat.le_add_right _ _
    · intro p a hp hw
      rw [wr.walk_eq p hp]; exact tr.mono p a hw
    · intro a ha i v hv
      rw [wr.elems_eq a i]
      by_cases hc : a = res.arr ∧ i = res.ix
      · right
        refine ⟨w, rfl, by rw [if_pos hc], ?_, ?_⟩
        · show s3.heap.walk s3.arr (keyPath k) = some a
          rw [wr.walk_eq _ (le_of_eq (keyPath_length k)), hc.1]; exact tr.leaf
        · show i = keySlot k
          rw [hc.2]; exact tr.ix_eq
      · left
        rw [if_neg hc]; exact tr.keep a ha i v hv

/-- Witness for C12: `set(1234, "foo")` on a fresh structure. -/
theorem chunks_persist_witness :
    Reachable (BigArr.construct : BigArr String) ∧
      validKey (Op.set 1234 (Value.other "foo") : Op String).key ∧
      ∃ r s2, (BigArr.construct : BigArr String).exec (Op.set 1234 (Value.other "foo"))
          = some (r, s2) ∧
        (BigArr.construct : BigArr String).heap.size ≤ s2.heap.size :=
  ⟨reachable_construct, by decide,
    (chunks_persist (BigArr.construct : BigArr String) reachable_construct
      (Op.set 1234 (Value.other "foo")) (by decide)).imp
      (fun _ h => h.imp (fun _ h2 => ⟨h2.1, h2.2.1⟩))⟩

/-- C13: on a fresh structure, for every key `k` in `0 .. 2^64-1`, `get(k)`
returns `undefined` and leaves exactly 7 new chunks, one for each byte prefix
`b0..bi` (`i` in `0 .. 6`) of `k`; the only occupied slot of a new chunk (and of
the root) is the one for the next byte of `k`, and the last new chunk is empty.
More generally, on every reachable structure `get(k)` creates a chunk for every
prefix of `k` that had none. -/
theorem get_creates_on_read {α : Type} (k : Int) (_hk : validKey k) :
    (∃ s2, (BigArr.construct : BigArr α).get k = some (Value.undefined, s2) ∧
      s2.heap.size = (BigArr.construct : BigArr α).heap.size + 7 ∧
      (∀ i, i < 7 → ∃ a, (BigArr.construct : BigArr α).heap.size ≤ a ∧ a < s2.heap.size ∧
        s2.heap.walk s2.arr ((keyPath k).take (i + 1)) = some a ∧
        ∀ j v, (s2.heap.obj a).elems j = some v →
          i < 6 ∧ (keyPath k).take (i + 1) ++ [j] = (keyPath k).take (i + 2)) ∧
      (∀ a, (BigArr.construct : BigArr α).heap.size ≤ a → a < s2.heap.size →
        ∃ i, i < 7 ∧ s2.heap.walk s2.arr ((keyPath k).take (i + 1)) = some a) ∧
      (∀ j v, (s2.heap.obj s2.arr).elems j = some v → [j] = (keyPath k).take 1)) ∧
    (∀ s : BigArr α, Reachable s → ∃ r s2, s.get k = some (r, s2) ∧
      ∀ i, i < 7 → ∃ a, s2.heap.walk s2.arr ((keyPath k).take (i + 1)) = some a ∧
        (s.heap.walk s.arr ((keyPath k).take (i + 1)) = none →
          s.heap.size ≤ a ∧ a < s2.heap.size)) := by
  constructor
  · obtain ⟨s2, res, hget, tr, hcr⟩ :=
      get_creates (BigArr.construct : BigArr α) ⟨_, construct_inv⟩ k
    rw [peek_construct] at hget
    refine ⟨s2, hget, ?_, ?_, ?_, ?_⟩
    · rw [tr.size_eq, missing_construct]
    · intro i hi
      obtain ⟨a, ha, hnew⟩ := hcr i hi
      obtain ⟨h1, h2⟩ := hnew (walk_construct _ (take_keyPath_ne_nil k i))
      refine ⟨a, h1, h2, ha, ?_⟩
      intro j v hv
      have hlen : ((keyPath k).take (i + 1)).length = i + 1 := by
        rw [List.length_take, keyPath_length]; omega
      have hnone : (BigArr.construct : BigArr α).slotAt ((keyPath k).take (i + 1)) j = none := by
        simp only [BigArr.slotAt, walk_construct _ (take_keyPath_ne_nil k i)]
      by_cases h6 : i < 6
      · refine ⟨h6, ?_⟩
        have := tr.slot_on_path _ (by rw [hlen]; omega) a j v ha hv hnone
        rwa [hlen] at this
      · have hi6 : i = 6 := by omega
        subst hi6
        have hsl := tr.slots _ hlen j
        rw [hnone] at hsl
        simp only [BigArr.slotAt, ha, hv] at hsl
        cases hsl
    · intro a ha1 ha2
      obtain ⟨j, hj0, hj7, hw2, -⟩ := tr.created a ha1 ha2
      exact ⟨j - 1, by omega, by rw [Nat.sub_add_cancel hj0]; exact hw2⟩
    · intro j v hv
      have hnone : (BigArr.construct : BigArr α).slotAt [] j = none := rfl
      have := tr.slot_on_path [] (Nat.zero_le _) s2.arr j v rfl hv hnone
      simpa using this
  · intro s hs
    obtain ⟨s2, res, hget, -, hcr⟩ := get_creates s hs.isTree k
    exact ⟨_, s2, hget, hcr⟩

/-- Witness for C13: `get(9999)` on a fresh structure. -/
theorem get_creates_on_read_witness :
    validKey 9999 ∧
      ∃ s2, (BigArr.construct : BigArr String).get 9999 = some (Value.undefined, s2) ∧
        s2.heap.size = (BigArr.construct : BigArr String).heap.size + 7 :=
  ⟨by decide, (get_creates_on_read 9999 (by decide)).1.imp (fun _ h => ⟨h.1, h.2.1⟩)⟩

/-- C14: in every reachable structure and for every key `k` in `0 .. 2^64-1`,
`index_chunk(k)` returns; its descent has exactly 7 steps, through the first
seven bytes of `k`; each step reads a slot of a live chunk that is a hole or a
reference to a live chunk; and the result is the chunk at the 7-byte path of
`k` together with the index `k mod 256`, which is below 256. -/
theorem index_chunk_total {α : Type} (s : BigArr α) (hs : Reachable s) (k : Int)
    (hk : validKey k) :
    ∃ s2 res, s.index_chunk k = some (s2, res) ∧
      (s.descent k).length = 7 ∧ (s.descent k).map Step.lx = keyPath k ∧
      (∀ e ∈ s.descent k, e.cur < s2.heap.size ∧
        (e.slot = none ∨ ∃ b, e.slot = some (Value.ref b) ∧ b < s2.heap.size)) ∧
      s2.heap.walk s2.arr (keyPath k) = some res.arr ∧ (keyPath k).length = 7 ∧
      res.arr < s2.heap.size ∧ res.ix < 256 ∧ res.ix = k.toNat % 256 := by
  obtain ⟨lab, inv⟩ := hs.isTree
  obtain ⟨s2, res, hix, tr⟩ := index_chunk_traversed s hs.isTree k
  obtain ⟨h2, leaf, hrun, -, hlen, hlx, hall⟩ :=
    index_chunk_log_spec s.arr 7 s.heap lab s.arr (swapped k) inv inv.root_lt
      (by rw [inv.lab_root]; simp)
  have hh : s2.heap = h2 := by
    have hrun2 : index_chunk_loop 7 s.heap s.arr (loadBigUint64 (storeBigUint64 k).reverse)
        = some (h2, leaf, swapped k / 256 ^ 7) := hrun
    simp only [BigArr.index_chunk, hrun2, Option.some.injEq, Prod.mk.injEq] at hix
    rw [← hix.1]
  subst hh
  refine ⟨s2, res, hix, hlen, hlx, hall, tr.leaf, keyPath_length k, tr.leaf_lt, ?_, ?_⟩
  · rw [tr.ix_eq]; exact keySlot_lt k
  · rw [tr.ix_eq, keySlot_eq, validKey_toNat k hk]

/-- Witness for C14: the key 1234 on a fresh structure. -/
theorem index_chunk_total_witness :
    Reachable (BigArr.construct : BigArr String) ∧ validKey 1234 ∧
      ∃ s2 res, (BigArr.construct : BigArr String).index_chunk 1234 = some (s2, res) ∧
        ((BigArr.construct : BigArr String).descent 1234).length = 7 ∧ res.ix = 210 :=
  ⟨reachable_construct, by decide,
    (index_chunk_total (BigArr.construct : BigArr String) reachable_construct 1234
      (by decide)).imp
      (fun _ h => h.imp (fun _ h2 => ⟨h2.1, h2.2.1, h2.2.2.2.2.2.2.2.2⟩))⟩

/-- C15: in every reachable structure, for every key `k` in `0 .. 2^64-1` and
every value `v`, `set(k, v)` returns `v`. -/
theorem set_returns_value {α : Type} (s : BigArr α) (hs : Reachable s) (k : Int)
    (hk : validKey k) (v : Value α) : ∃ s2, s.set k v = some (v, s2) := by
  obtain ⟨s2, hset, -⟩ := tree_set s hs.isTree k hk v
  exact ⟨s2, hset⟩

/-- Witness for C15: `set(1234, "foo")` on a fresh structure. -/
theorem set_returns_value_witness :
    Reachable (BigArr.construct : BigArr String) ∧ validKey 1234 ∧
      ∃ s2, (BigArr.construct : BigArr String).set 1234 (Value.other "foo")
        = some (Value.other "foo", s2) :=
  ⟨reachable_construct, by decide,
    set_returns_value (BigArr.construct : BigArr String) reachable_construct 1234 (by decide)
      (Value.other "foo")⟩

/-- C16: in every reachable structure and for all keys `k`, `k2` in
`0 .. 2^64-1` (equal or not), `get(k2)` returns the same result whether or not
`get(k)` was called first. -/
theorem get_pure {α : Type} (s : BigArr α) (hs : Reachable s) (k k2 : Int) (_hk : validKey k)
    (_hk2 : validKey k2) :
    ∃ r sa r1 s1 sb, s.get k2 = some (r, sa) ∧ s.get k = some (r1, s1) ∧
      s1.get k2 = some (r, sb) := by
  obtain ⟨sa, hga, -⟩ := tree_get s hs.isTree k2
  obtain ⟨s1, hg1, t1, -, -, hp1⟩ := tree_get s hs.isTree k
  obtain ⟨sb, hgb, -⟩ := tree_get s1 t1 k2
  exact ⟨s.peek k2, sa, s.peek k, s1, sb, hga, hg1, by rw [hgb, hp1 k2]⟩

/-- Witness for C16: `get(9999)` twice after `set(9999, "foo")`. -/
theorem get_pure_witness :
    Reachable (BigArr.construct : BigArr String) ∧ validKey 9999 ∧
      ∃ r sa r1 s1 sb, (BigArr.construct : BigArr String).get 9999 = some (r, sa) ∧
        (BigArr.construct : BigArr String).get 9999 = some (r1, s1) ∧
        s1.get 9999 = some (r, sb) :=
  ⟨reachable_construct, by decide,
    get_pure (BigArr.construct : BigArr String) reachable_construct 9999 9999 (by decide)
      (by decide)⟩

/-- C17: a BigInt key outside `0 .. 2^64-1` is not rejected: `index_chunk`,
`get` and `set` do for `k` exactly what they do for `k mod 2^64`, which is a
key of the domain; so in every reachable structure `get(k)` and `set(k, v)`
return for every integer `k`, `set(2^64 + 5, v)` followed by `get(5)` returns
`v`, and so does `set(-1, v)` followed by `get(2^64 - 1)`. -/
theorem key_alias {α : Type} (s : BigArr α) (hs : Reachable s) (k : Int) (v : Value α) :
    validKey (k % 2 ^ 64) ∧ s.index_chunk k = s.index_chunk (k % 2 ^ 64) ∧
    s.get k = s.get (k % 2 ^ 64) ∧ s.set k v = s.set (k % 2 ^ 64) v ∧
    (∃ r s1, s.get k = some (r, s1)) ∧ (∃ s1, s.set k v = some (v, s1)) ∧
    (∃ s1 s2, s.set (2 ^ 64 + 5) v = some (v, s1) ∧ s1.get 5 = some (v, s2)) ∧
    (∃ s1 s2, s.set (-1) v = some (v, s1) ∧ s1.get (2 ^ 64 - 1) = some (v, s2)) := by
  have hget : ∀ j : Int, s.get j = s.get (j % 2 ^ 64) := fun j => by
    simp only [BigArr.get, index_chunk_emod]
  have hset : ∀ j : Int, s.set j v = s.set (j % 2 ^ 64) v := fun j => by
    simp only [BigArr.set, index_chunk_emod]
  refine ⟨validKey_emod k, (index_chunk_emod s k).symm, hget k, hset k, ?_, ?_, ?_, ?_⟩
  · obtain ⟨s1, hg, -⟩ := tree_get s hs.isTree k
    exact ⟨_, s1, hg⟩
  · obtain ⟨s1, hs1, -⟩ := tree_set s hs.isTree (k % 2 ^ 64) (validKey_emod k) v
    exact ⟨s1, by rw [hset k]; exact hs1⟩
  · obtain ⟨s1, hs1, t1, hp1, -⟩ := tree_set s hs.isTree 5 (by decide) v
    obtain ⟨s2, hg2, -⟩ := tree_get s1 t1 5
    refine ⟨s1, s2, ?_, by rw [hg2, hp1]⟩
    rw [hset (2 ^ 64 + 5)]
    exact hs1
  · obtain ⟨s1, hs1, t1, hp1, -⟩ := tree_set s hs.isTree (2 ^ 64 - 1) (by decide) v
    obtain ⟨s2, hg2, -⟩ := tree_get s1 t1 (2 ^ 64 - 1)
    refine ⟨s1, s2, ?_, by rw [hg2, hp1]⟩
    rw [hset (-1)]
    exact hs1

/-- Witness for C17: `set(2^64 + 5, "foo")` then `get(5)` on a fresh structure. -/
theorem key_alias_witness :
    Reachable (BigArr.construct : BigArr String) ∧
      ∃ s1 s2, (BigArr.construct : BigArr String).set (2 ^ 64 + 5) (Value.other "foo")
          = some (Value.other "foo", s1) ∧
        s1.get 5 = some (Value.other "foo", s2) :=
  ⟨reachable_construct,
    (key_alias (BigArr.construct : BigArr String) reachable_construct 0
      (Value.other "foo")).2.2.2.2.2.2.1⟩

/-- C18: in every reachable structure, for distinct keys `k ≠ k2` in
`0 .. 2^64-1` and values `v`, `v2`, the calls `set(k, v)`; `set(k2, v2)` and
the calls `set(k2, v2)`; `set(k, v)` both return and leave the same structure:
the same number of chunks, chunks at the same byte prefixes, and the same
slot contents; every `get` returns the same result after either order. -/
theorem set_commute {α : Type} (s : BigArr α) (hs : Reachable s) (k k2 : Int)
    (hk : validKey k) (hk2 : validKey k2) (hne : k ≠ k2) (v v2 : Value α) :
    ∃ sa sab sb sba, s.set k v = some (v, sa) ∧ sa.set k2 v2 = some (v2, sab) ∧
      s.set k2 v2 = some (v2, sb) ∧ sb.set k v = some (v, sba) ∧
      SameStructure sab sba ∧
      ∀ k3, ∃ r s4 s5, sab.get k3 = some (r, s4) ∧ sba.get k3 = some (r, s5) := by
  obtain ⟨sa, hsa, va⟩ := set_view s hs.isTree k v
  obtain ⟨sab, hsab, vab⟩ := set_view sa va.tree k2 v2
  obtain ⟨sb, hsb, vb⟩ := set_view s hs.isTree k2 v2
  obtain ⟨sba, hsba, vba⟩ := set_view sb vb.tree k v
  have hkey : ¬ (keyPath k2 = keyPath k ∧ keySlot k2 = keySlot k) := by
    rw [key_eq_iff k k2 hk hk2]; exact Ne.symm hne
  have hhas : ∀ p, p.length ≤ 7 →
      ((sab.heap.walk sab.arr p).isSome ↔ (sba.heap.walk sba.arr p).isSome) := by
    intro p hp
    rw [vab.has_iff p hp, va.has_iff p hp, vba.has_iff p hp, vb.has_iff p hp]
    exact or_right_comm
  refine ⟨sa, sab, sb, sba, hsa, hsab, hsb, hsba, ⟨?_, hhas, ?_, ?_⟩, ?_⟩
  · rw [vab.size_eq, va.size_eq, vba.size_eq, vb.size_eq, Nat.add_assoc, Nat.add_assoc,
      missing_comm s sa sb k k2 v v2 va vb]
  · intro p hp i
    rw [vab.slots p hp i, va.slots p hp i, vba.slots p hp i, vb.slots p hp i]
    by_cases h1 : p = keyPath k2 ∧ i = keySlot k2
    · by_cases h2 : p = keyPath k ∧ i = keySlot k
      · exact absurd ⟨h1.1.symm.trans h2.1, h1.2.symm.trans h2.2⟩ hkey
      · rw [if_pos h1, if_neg h2, if_pos h1]
    · by_cases h2 : p = keyPath k ∧ i = keySlot k
      · rw [if_neg h1, if_pos h2, if_pos h2]
      · rw [if_neg h1, if_neg h2, if_neg h2, if_neg h1]
  · intro p hp i
    exact branch_slots_same sab sba vab.tree vba.tree hhas p hp i
  · intro k3
    obtain ⟨s4, hg4, -⟩ := tree_get sab vab.tree k3
    obtain ⟨s5, hg5, -⟩ := tree_get sba vba.tree k3
    refine ⟨sab.peek k3, s4, s5, hg4, ?_⟩
    rw [hg5, vab.peek_eq k3, va.peek_eq k3, vba.peek_eq k3, vb.peek_eq k3]
    by_cases h1 : keyPath k3 = keyPath k2 ∧ keySlot k3 = keySlot k2
    · by_cases h2 : keyPath k3 = keyPath k ∧ keySlot k3 = keySlot k
      · exact absurd ⟨h1.1.symm.trans h2.1, h1.2.symm.trans h2.2⟩ hkey
      · simp only [if_pos h1, if_neg h2]
    · by_cases h2 : keyPath k3 = keyPath k ∧ keySlot k3 = keySlot k
      · simp only [if_neg h1, if_pos h2]
      · simp only [if_neg h1, if_neg h2]

/-- Witness for C18: `set(0, "a")` and `set(18446744073709551615, "b")` on a
fresh structure. -/
theorem set_commute_witness :
    Reachable (BigArr.construct : BigArr String) ∧ validKey 0 ∧
      validKey 18446744073709551615 ∧ (0 : Int) ≠ 18446744073709551615 ∧
      ∃ sa sab sb sba,
        (BigArr.construct : BigArr String).set 0 (Value.other "a") = some (Value.other "a", sa) ∧
        sa.set 18446744073709551615 (Value.other "b") = some (Value.other "b", sab) ∧
        (BigArr.construct : BigArr String).set 18446744073709551615 (Value.other "b")
          = some (Value.other "b", sb) ∧
        sb.set 0 (Value.other "a") = some (Value.other "a", sba) ∧
        SameStructure sab sba := by
  obtain ⟨sa, sab, sb, sba, h1, h2, h3, h4, h5, -⟩ :=
    set_commute (BigArr.construct : BigArr String) reachable_construct 0 18446744073709551615
      (by decide) (by decide) (by decide) (Value.other "a") (Value.other "b")
  exact ⟨reachable_construct, by decide, by decide, by decide, sa, sab, sb, sba, h1, h2, h3, h4,
    h5⟩

end BigArrJS
